import Mathlib

/-
Verification of the maze engine: grid data model, Wilson generator,
DFS/BFS/A* solvers and the binary codec, shallowly embedded from the
Rust sources (src/lib.rs, src/maze/mod.rs, src/maze/generators.rs,
src/maze/solvers.rs).  Machine integers are modelled as Nat; random
draws are modelled as an explicit stream of naturals; panicking
operations return Option (none = panic / non-termination).
-/

namespace MazeSpec


abbrev Pos := Nat × Nat

/-- src/lib.rs: `enum Direction { UP = 1, RIGHT = 2, DOWN = 4, LEFT = 8 }`. -/
inductive Direction where
  | UP
  | RIGHT
  | DOWN
  | LEFT
deriving DecidableEq, Repr

/-- The 4-bit flag value of a direction (`Direction as u8`). -/
def Direction.bit : Direction → Nat
  | .UP => 1
  | .RIGHT => 2
  | .DOWN => 4
  | .LEFT => 8

/-- src/lib.rs `Direction::opposite`. -/
def Direction.opposite : Direction → Direction
  | .UP => .DOWN
  | .DOWN => .UP
  | .LEFT => .RIGHT
  | .RIGHT => .LEFT

/-- src/lib.rs `Direction::travel` (coordinate shifted one step; callers
guard the low edge, so Nat truncation never fires in verified uses). -/
def Direction.travel : Direction → Pos → Pos
  | .UP, (x, y) => (x, y - 1)
  | .DOWN, (x, y) => (x, y + 1)
  | .LEFT, (x, y) => (x - 1, y)
  | .RIGHT, (x, y) => (x + 1, y)

/-- src/maze/mod.rs `struct Maze { width, height, cells }`, row-major cells. -/
structure Maze where
  width : Nat
  height : Nat
  cells : List Nat
deriving DecidableEq, Repr

/-- `Maze::new` (vec of zeroes). -/
def Maze.new (width height : Nat) : Maze :=
  ⟨width, height, List.replicate (width * height) 0⟩

/-- Cell value at a coordinate (`self.cells[y * self.width + x]`). -/
def Maze.cellAt (m : Maze) (p : Pos) : Nat :=
  m.cells.getD (p.2 * m.width + p.1) 0

/-- `Maze::get_bounds`. -/
def Maze.get_bounds (m : Maze) : Pos := (m.width, m.height)

/-- `Maze::open`: set the direction bit on cell (x, y) only. -/
def Maze.openDir (m : Maze) (x y : Nat) (d : Direction) : Maze :=
  ⟨m.width, m.height,
    m.cells.set (y * m.width + x) (m.cellAt (x, y) ||| d.bit)⟩

/-- src/maze/mod.rs `Maze::carve`: open `dir` on (x,y) and the opposite
bit on the neighbor reached by travelling `dir`. -/
def Maze.carve (m : Maze) (x y : Nat) (d : Direction) : Maze :=
  let m1 := m.openDir x y d
  let p := d.travel (x, y)
  m1.openDir p.1 p.2 d.opposite

/-- src/maze/mod.rs `Maze::get_neighbors`: raw adjacency, pushed in the
source order LEFT, RIGHT, UP, DOWN. -/
def Maze.get_neighbors (m : Maze) (p : Pos) : List (Pos × Direction) :=
  (if 0 < p.1 then [((p.1 - 1, p.2), Direction.LEFT)] else []) ++
  (if p.1 + 1 < m.width then [((p.1 + 1, p.2), Direction.RIGHT)] else []) ++
  (if 0 < p.2 then [((p.1, p.2 - 1), Direction.UP)] else []) ++
  (if p.2 + 1 < m.height then [((p.1, p.2 + 1), Direction.DOWN)] else [])

/-- src/maze/mod.rs `Maze::get_travellable_neighbors`: only neighbors
reachable through a currently open passage, pushed in the source order
LEFT, RIGHT, UP, DOWN.  The Rust function returns a 4-array plus a
count; the list below is exactly the filled prefix. -/
def Maze.get_travellable_neighbors (m : Maze) (p : Pos) : List Pos :=
  let v := m.cellAt p
  (if 0 < p.1 ∧ v &&& Direction.bit .LEFT ≠ 0 then [(p.1 - 1, p.2)] else []) ++
  (if p.1 + 1 < m.width ∧ v &&& Direction.bit .RIGHT ≠ 0 then [(p.1 + 1, p.2)] else []) ++
  (if 0 < p.2 ∧ v &&& Direction.bit .UP ≠ 0 then [(p.1, p.2 - 1)] else []) ++
  (if p.2 + 1 < m.height ∧ v &&& Direction.bit .DOWN ≠ 0 then [(p.1, p.2 + 1)] else [])

/-- A coordinate is inside the grid. -/
def Maze.inB (m : Maze) (p : Pos) : Prop := p.1 < m.width ∧ p.2 < m.height

instance (m : Maze) (p : Pos) : Decidable (m.inB p) := by
  unfold Maze.inB; infer_instance

/-- The direction `d` can be travelled from (x, y) without leaving the
grid (this is the guard the spec requires of every carve caller). -/
def Maze.travelOk (m : Maze) (x y : Nat) (d : Direction) : Prop :=
  match d with
  | .UP => 0 < y
  | .DOWN => y + 1 < m.height
  | .LEFT => 0 < x
  | .RIGHT => x + 1 < m.width

/-- A maze is well formed when its cell array has exactly width*height
entries (true of every constructor in the source). -/
def Maze.wf (m : Maze) : Prop := m.cells.length = m.width * m.height

/-- Bit test used all over the source: `value & (dir as u8) != 0`. -/
def hasBit (v : Nat) (d : Direction) : Prop := v &&& d.bit ≠ 0

instance (v : Nat) (d : Direction) : Decidable (hasBit v d) := by
  unfold hasBit; infer_instance

def Direction.idx : Direction → Nat
  | .UP => 0
  | .RIGHT => 1
  | .DOWN => 2
  | .LEFT => 3

instance (m : Maze) : Decidable m.wf := by
  unfold Maze.wf; infer_instance

instance (m : Maze) (x y : Nat) (d : Direction) : Decidable (m.travelOk x y d) := by
  unfold Maze.travelOk; cases d <;> infer_instance

/-! ### Solvers (src/maze/solvers.rs)

The HashMap/HashSet/BTreeMap containers are modelled as association
lists; the BTreeMap keeps its list sorted by key so that iteration
order matches the Rust ascending-key iteration.  A solver `step`
returns `none` when the Rust code would panic (a failed `unwrap`) or
loop forever. -/

def alookup {β : Type} : List (Pos × β) → Pos → Option β
  | [], _ => none
  | (k, v) :: rest, a => if a = k then some v else alookup rest a

/-- `HashMap::insert` (overwrite or add). -/
def insertA {β : Type} (k : Pos) (v : β) : List (Pos × β) → List (Pos × β)
  | [] => [(k, v)]
  | (k2, v2) :: rest => if k = k2 then (k, v) :: rest else (k2, v2) :: insertA k v rest

/-- `DFSSolver { visited, path, end }`. -/
structure DFSSolver where
  visited : List Pos
  path : List Pos
  endPos : Pos
deriving DecidableEq, Repr

/-- `DFSSolver::new`. -/
def dfsInit (bounds : Pos) : DFSSolver :=
  ⟨[], [(0, 0)], (bounds.1 - 1, bounds.2 - 1)⟩

/-- `DFSSolver::step`.  `none` models the panic of
`self.path.last().unwrap()` on an empty path. -/
def dfsStep (m : Maze) (s : DFSSolver) : Option (DFSSolver × Option (List Pos)) :=
  match s.path.getLast? with
  | none => none
  | some pos =>
    if pos = s.endPos then some (s, some s.path)
    else
      let next := (m.get_travellable_neighbors pos).find?
        (fun q => decide (q ∉ s.visited))
      match next with
      | some v => some (⟨pos :: s.visited, s.path ++ [v], s.endPos⟩, none)
      | none => some (⟨pos :: s.visited, s.path.dropLast, s.endPos⟩, none)

/-- `BFSSolver { queue, visited, path, finished, end }`. -/
structure BFSSolver where
  queue : List Pos
  visited : List (Pos × Option Pos)
  path : List Pos
  finished : Bool
  endPos : Pos
deriving DecidableEq, Repr

/-- `BFSSolver::new`. -/
def bfsInit (bounds : Pos) : BFSSolver :=
  ⟨[(0, 0)], [((0, 0), none)], [], false, (bounds.1 - 1, bounds.2 - 1)⟩

/-- The predecessor-following loop of the two path reconstructions.
`get` extracts the predecessor from the stored value; `none` models
either a failed `unwrap` (missing key) or a chain longer than the map,
which in the source is an endless loop. -/
def chase {β : Type} (get : β → Option Pos) (mp : List (Pos × β)) :
    Pos → Nat → Option (List Pos)
  | _, 0 => none
  | p, fuel + 1 =>
    match alookup mp p with
    | none => none
    | some b =>
      match get b with
      | none => some [p]
      | some q => (chase get mp q fuel).map (fun l => p :: l)

/-- `BFSSolver::step`.  `none` models the `pop_front().unwrap()` panic
on an empty queue and a reconstruction failure. -/
def bfsStep (m : Maze) (s : BFSSolver) : Option (BFSSolver × Option (List Pos)) :=
  if s.finished then some (s, some s.path)
  else
    match s.queue with
    | [] => none
    | pos :: rest =>
      if pos = s.endPos then
        match chase id s.visited pos (s.visited.length + 1) with
        | none => none
        | some l =>
          let path := l.reverse
          some (⟨rest, s.visited, path, true, s.endPos⟩, some path)
      else
        let fresh := (m.get_travellable_neighbors pos).filter
          (fun q => (alookup s.visited q).isNone)
        some (⟨rest ++ fresh, s.visited ++ fresh.map (fun q => (q, some pos)),
          s.path, s.finished, s.endPos⟩, none)

/-- `struct CellInformation { f_cost, h_cost, from }`. -/
structure CellInformation where
  f_cost : Nat
  h_cost : Nat
  from_ : Option Pos
deriving DecidableEq, Repr

/-- `usize::MAX` (costs are modelled as Nat; the initial scan value). -/
def usizeMAX : Nat := 2 ^ 64 - 1

/-- Strict lexicographic order of `(usize, usize)` keys, the BTreeMap
iteration order. -/
def keyLT (a b : Pos) : Prop := a.1 < b.1 ∨ (a.1 = b.1 ∧ a.2 < b.2)

instance (a b : Pos) : Decidable (keyLT a b) := by
  unfold keyLT; infer_instance

/-- `BTreeMap::insert` of an absent key, keeping the list key-sorted. -/
def insertSorted (k : Pos) (v : CellInformation) :
    List (Pos × CellInformation) → List (Pos × CellInformation)
  | [] => [(k, v)]
  | (k2, v2) :: rest =>
    if keyLT k k2 then (k, v) :: (k2, v2) :: rest
    else (k2, v2) :: insertSorted k v rest

/-- `BTreeMap::remove`. -/
def removeKey {β : Type} (k : Pos) (l : List (Pos × β)) : List (Pos × β) :=
  l.filter (fun e => decide (e.1 ≠ k))

/-- `BTreeMap::entry(..).or_insert(..)`: insert only when absent. -/
def orInsert (l : List (Pos × CellInformation)) (k : Pos) (v : CellInformation) :
    List (Pos × CellInformation) :=
  if (alookup l k).isSome then l else insertSorted k v l

/-- The minimum scan at the top of `AStarSolver::step`: iterate the
open map in ascending key order, starting from the dummy
`((1,1), {f: usize::MAX, h: usize::MAX, from: None})`, replacing the
candidate on strictly smaller f, or equal f and smaller-or-equal h. -/
def scanMin (l : List (Pos × CellInformation)) : Pos × CellInformation :=
  l.foldl
    (fun best e =>
      if e.2.f_cost < best.2.f_cost ∨
          (e.2.f_cost = best.2.f_cost ∧ e.2.h_cost ≤ best.2.h_cost)
      then e else best)
    ((1, 1), ⟨usizeMAX, usizeMAX, none⟩)

/-- `usize::abs_diff`. -/
def absDiff (a b : Nat) : Nat := if a < b then b - a else a - b

/-- `AStarSolver { open, closed, end, path }`. -/
structure AStarSolver where
  open_ : List (Pos × CellInformation)
  closed : List (Pos × CellInformation)
  endPos : Pos
  path : List Pos
deriving DecidableEq, Repr

/-- `AStarSolver::new`. -/
def astarInit (bounds : Pos) : AStarSolver :=
  ⟨[((0, 0), ⟨bounds.1 + bounds.2, 0, none⟩)], [],
    (bounds.1 - 1, bounds.2 - 1), []⟩

/-- The body of the neighbor loop of `AStarSolver::step`: skip
neighbors already in `closed`, compute `g = current.h_cost + 1`,
`h = |cur.x - end.x| + |cur.y - end.y|`, `f = g + h`; the
reopen-into-closed branch is kept although its guard can never hold
after the skip; otherwise `open.entry(n).or_insert(..)`. -/
def astarVisit (endPos cp : Pos) (current : CellInformation)
    (acc : List (Pos × CellInformation) × List (Pos × CellInformation))
    (nb : Pos) : List (Pos × CellInformation) × List (Pos × CellInformation) :=
  if (alookup acc.2 nb).isSome then acc
  else
    let g_cost := current.h_cost + 1
    let h_cost := absDiff cp.1 endPos.1 + absDiff cp.2 endPos.2
    let f_cost := g_cost + h_cost
    if (match alookup acc.2 nb with
        | some v => decide (h_cost < v.h_cost)
        | none => false) = true then
      (acc.1, insertA nb ⟨f_cost, h_cost, some cp⟩ acc.2)
    else
      (orInsert acc.1 nb ⟨f_cost, h_cost, some cp⟩, acc.2)

/-- `AStarSolver::step`. -/
def astarStep (m : Maze) (s : AStarSolver) : Option (AStarSolver × Option (List Pos)) :=
  if s.path.isEmpty then
    let cur := scanMin s.open_
    let cp := cur.1
    let current := cur.2
    let closed1 := insertA cp current s.closed
    let open1 := removeKey cp s.open_
    if cp = s.endPos then
      match chase (fun ci => ci.from_) closed1 cp (closed1.length + 1) with
      | none => none
      | some l =>
        let path := l.reverse
        some (⟨open1, closed1, s.endPos, path⟩, some path)
    else
      let res := (m.get_travellable_neighbors cp).foldl
        (astarVisit s.endPos cp current) (open1, closed1)
      some (⟨res.1, res.2, s.endPos, s.path⟩, none)
  else some (s, some s.path)

/-- `enum Algorithm` (the closed tagged union over the three solvers). -/
inductive Algorithm where
  | DepthFirstSearch : DFSSolver → Algorithm
  | BreadthFirstSearch : BFSSolver → Algorithm
  | AStar : AStarSolver → Algorithm
deriving DecidableEq, Repr

/-- `Algorithm::step` dispatch. -/
def Algorithm.step (m : Maze) : Algorithm → Option (Algorithm × Option (List Pos))
  | .DepthFirstSearch s => (dfsStep m s).map (fun r => (.DepthFirstSearch r.1, r.2))
  | .BreadthFirstSearch s => (bfsStep m s).map (fun r => (.BreadthFirstSearch r.1, r.2))
  | .AStar s => (astarStep m s).map (fun r => (.AStar r.1, r.2))

/-- The packing loop of `encode_maze`: `cell1 << 4 | cell2` on u8,
with a zero default for the missing final cell of an odd count. -/
def packPairs : List Nat → List Nat
  | [] => []
  | [c1] => [((c1 <<< 4) &&& 255) ||| 0]
  | c1 :: c2 :: rest => (((c1 <<< 4) &&& 255) ||| c2) :: packPairs rest

/-- `encode_maze`: width as 2-byte big-endian, then packed pairs. -/
def encode_maze (m : Maze) : Except String (List Nat) :=
  if m.width > 65535 then .error "maze width too large"
  else .ok ([(m.width >>> 8) &&& 255, m.width &&& 255] ++ packPairs m.cells)

/-- The unpacking loop of `decode_maze`: every byte contributes its
high nibble, and its low nibble only while `i * 2 + 1 < cell_count`. -/
def unpackFrom (cc : Nat) : Nat → List Nat → List Nat
  | _, [] => []
  | i, b :: rest =>
    (b >>> 4) :: ((if i * 2 + 1 < cc then [b &&& 15] else []) ++ unpackFrom cc (i + 1) rest)

/-- `decode_maze`; `none` models the panics of the source: slicing a
buffer shorter than 2 bytes, `cell_data.last().unwrap()` on an empty
cell area, and `cell_count / width` with a zero width. -/
def decode_maze (data : List Nat) : Option (Except String Maze) :=
  if data.length < 2 then none
  else
    let cell_data := data.drop 2
    let width := ((data.getD 0 0) <<< 8) + data.getD 1 0
    match cell_data.getLast? with
    | none => none
    | some lastByte =>
      let cell_count :=
        if lastByte &&& 15 = 0 then cell_data.length * 2 - 1 else cell_data.length * 2
      if width = 0 then none
      else some (.ok ⟨width, cell_count / width, unpackFrom cell_count 0 cell_data⟩)

/-- Candidate enumeration written from the claim's words: UP, RIGHT,
DOWN, LEFT, restricted to in-bounds neighbors behind open passages. -/
def claimOrderNeighbors (m : Maze) (p : Pos) : List Pos :=
  let v := m.cellAt p
  (if 0 < p.2 ∧ v &&& Direction.bit .UP ≠ 0 then [(p.1, p.2 - 1)] else []) ++
  (if p.1 + 1 < m.width ∧ v &&& Direction.bit .RIGHT ≠ 0 then [(p.1 + 1, p.2)] else []) ++
  (if p.2 + 1 < m.height ∧ v &&& Direction.bit .DOWN ≠ 0 then [(p.1, p.2 + 1)] else []) ++
  (if 0 < p.1 ∧ v &&& Direction.bit .LEFT ≠ 0 then [(p.1 - 1, p.2)] else [])

/-- A 3x2 maze where cell (1,1) has LEFT, UP and RIGHT passages open. -/
def mazeC4 : Maze :=
  ((((Maze.new 3 2).carve 0 0 .DOWN).carve 0 1 .RIGHT).carve 1 1 .UP).carve 1 1 .RIGHT

/-- Candidate enumeration in the order the amended claim states:
LEFT, RIGHT, UP, DOWN, restricted to in-bounds open passages. -/
def amendedOrderNeighbors (m : Maze) (p : Pos) : List Pos :=
  let v := m.cellAt p
  (if 0 < p.1 ∧ v &&& Direction.bit .LEFT ≠ 0 then [(p.1 - 1, p.2)] else []) ++
  (if p.1 + 1 < m.width ∧ v &&& Direction.bit .RIGHT ≠ 0 then [(p.1 + 1, p.2)] else []) ++
  (if 0 < p.2 ∧ v &&& Direction.bit .UP ≠ 0 then [(p.1, p.2 - 1)] else []) ++
  (if p.2 + 1 < m.height ∧ v &&& Direction.bit .DOWN ≠ 0 then [(p.1, p.2 + 1)] else [])

/-- The draw loop at the top of `Wilson::step`: draw a random raw
neighbor (the stream entry taken modulo the neighbor count), reject
and redraw as long as its direction equals the stored opposite of the
last direction.  `none` models both the `random_range(0..0)` panic on
an empty neighbor list and a stream exhausted by rejections (the
source loop would keep drawing). -/
def wilsonDraw (neighbors : List (Pos × Direction)) (opp : Option Direction) :
    List Nat → Option ((Pos × Direction) × List Nat)
  | [] => none
  | k :: rest =>
    if neighbors.length = 0 then none
    else
      let nxt := neighbors.getD (k % neighbors.length) ((0, 0), .UP)
      match opp with
      | some v => if v = nxt.2 then wilsonDraw neighbors opp rest else some (nxt, rest)
      | none => some (nxt, rest)

/-- Directed step through an open passage, as the solvers see it. -/
def openAdj (m : Maze) (u v : Pos) : Prop :=
  v ∈ m.get_travellable_neighbors u

/-- A nonempty coordinate sequence from `a` to `b` along open passages. -/
def IsOpenPath (m : Maze) (a b : Pos) (l : List Pos) : Prop :=
  l.head? = some a ∧ l.getLast? = some b ∧ l.Chain' (openAdj m)

/-- There is an open path of exactly `n` edges from `a` to `b`. -/
def ReachN (m : Maze) (a b : Pos) (n : Nat) : Prop :=
  ∃ l, IsOpenPath m a b l ∧ l.length = n + 1

def Reach (m : Maze) (a b : Pos) : Prop := ∃ l, IsOpenPath m a b l

/-- Graph distance from the start cell (0,0). -/
noncomputable def posDist (m : Maze) (v : Pos) : Nat :=
  sInf {n | ReachN m (0, 0) v n}

/-- The invariant carried through the BFS run. -/
structure BFSInv (m : Maze) (s : BFSSolver) : Prop where
  hfin : s.finished = false
  hstart : alookup s.visited (0, 0) = some none
  hkeys : (s.visited.map Prod.fst).Nodup
  hvis : ∀ v po, alookup s.visited v = some po →
    Reach m (0, 0) v ∧ (po = none → v = (0, 0)) ∧
    (∀ u, po = some u → openAdj m u v ∧
      (∃ po2, alookup s.visited u = some po2) ∧
      posDist m v = posDist m u + 1)
  hqvis : ∀ v ∈ s.queue, ∃ po, alookup s.visited v = some po
  hqsort : s.queue.Pairwise (fun a b => posDist m a ≤ posDist m b)
  hq2 : ∀ a ∈ s.queue, ∀ b ∈ s.queue, posDist m b ≤ posDist m a + 1
  hclosure : ∀ v, (∃ po, alookup s.visited v = some po) → v ∉ s.queue →
    ∀ w, openAdj m v w → ∃ po, alookup s.visited w = some po
  hqnodup : s.queue.Nodup
  hendq : ∀ po, alookup s.visited s.endPos = some po → s.endPos ∈ s.queue
  hvin : ∀ v po, alookup s.visited v = some po → m.inB v
  hdix : ∀ v po, alookup s.visited v = some po → posDist m v < s.visited.length

/-- Drive `BFSSolver::step` until it yields a path (at most `n` steps). -/
def bfsRun (m : Maze) : BFSSolver → Nat → Option (BFSSolver × Option (List Pos))
  | s, 0 => some (s, none)
  | s, n + 1 =>
    match bfsStep m s with
    | none => none
    | some (s2, some p) => some (s2, some p)
    | some (s2, none) => bfsRun m s2 n

instance (m : Maze) (u v : Pos) : Decidable (openAdj m u v) :=
  inferInstanceAs (Decidable (v ∈ m.get_travellable_neighbors u))

instance (m : Maze) (a b : Pos) (l : List Pos) : Decidable (IsOpenPath m a b l) :=
  inferInstanceAs (Decidable
    (l.head? = some a ∧ l.getLast? = some b ∧ l.Chain' (openAdj m)))

/-- A cell is carved when it is inside the grid and its bitmask is
non-zero (the test `maze.get(..) != 0` the generator uses). -/
def carved (m : Maze) (p : Pos) : Prop := m.inB p ∧ m.cellAt p ≠ 0

instance (m : Maze) (p : Pos) : Decidable (carved m p) :=
  inferInstanceAs (Decidable (m.inB p ∧ m.cellAt p ≠ 0))

/-- Grid adjacency: one step apart on exactly one axis (the relation
between consecutive walk entries). -/
def adjacent (a b : Pos) : Prop :=
  (a.1 = b.1 ∧ (b.2 = a.2 + 1 ∨ a.2 = b.2 + 1)) ∨
  (a.2 = b.2 ∧ (b.1 = a.1 + 1 ∨ a.1 = b.1 + 1))

instance (a b : Pos) : Decidable (adjacent a b) :=
  inferInstanceAs (Decidable
    ((a.1 = b.1 ∧ (b.2 = a.2 + 1 ∨ a.2 = b.2 + 1)) ∨
     (a.2 = b.2 ∧ (b.1 = a.1 + 1 ∨ a.1 = b.1 + 1))))

/-- The direction `finish_walk` computes between consecutive walk cells
(generators.rs:113-133): on the same column DOWN when the successor is
below else UP, otherwise RIGHT when it is to the right else LEFT. -/
def directionBetween (a b : Pos) : Direction :=
  if a.1 = b.1 then (if a.2 < b.2 then .DOWN else .UP)
  else (if a.1 < b.1 then .RIGHT else .LEFT)

/-- An open passage-pair between two adjacent in-bounds cells: each
side holds the bit facing the other. -/
def edgeOpen (m : Maze) (p q : Pos) : Prop :=
  m.inB p ∧ m.inB q ∧ adjacent p q ∧
  hasBit (m.cellAt p) (directionBetween p q) ∧
  hasBit (m.cellAt q) (directionBetween q p)

instance (m : Maze) (p q : Pos) : Decidable (edgeOpen m p q) :=
  inferInstanceAs (Decidable (m.inB p ∧ m.inB q ∧ adjacent p q ∧
    hasBit (m.cellAt p) (directionBetween p q) ∧
    hasBit (m.cellAt q) (directionBetween q p)))

/-- Reachability through open passage-pairs. -/
def ReachE (m : Maze) : Pos → Pos → Prop := Relation.ReflTransGen (edgeOpen m)

/-- A cycle of at least three distinct cells through open passages. -/
def IsCycle (m : Maze) (verts : List Pos) : Prop :=
  3 ≤ verts.length ∧ verts.Nodup ∧
  ∀ i (hi : i < verts.length),
    edgeOpen m (verts.get ⟨i, hi⟩)
      (verts.get ⟨(i + 1) % verts.length,
        Nat.mod_lt _ (Nat.lt_of_le_of_lt (Nat.zero_le i) hi)⟩)

/-- The carved cells with the open passages form a tree: connected and
acyclic. -/
def TreeOn (m : Maze) : Prop :=
  (∀ p q, carved m p → carved m q → ReachE m p q) ∧
  (∀ verts, ¬ IsCycle m verts)

/-- A rooted-tree certificate for the carved region: parent pointers
with strictly decreasing depth towards a carved root, defined on every
carved non-root cell, whose edges are open passages covering every
open passage. -/
structure TreeCert (m : Maze) where
  root : Pos
  parent : Pos → Option Pos
  depth : Pos → Nat
  hroot : carved m root
  hnone : parent root = none
  hsome : ∀ p, carved m p → p ≠ root → (parent p).isSome
  hedge : ∀ p q, parent p = some q → edgeOpen m p q ∧ depth p = depth q + 1
  hcov : ∀ p q, edgeOpen m p q → parent p = some q ∨ parent q = some p

/-- The finset of carved cells. -/
def carvedFinset (m : Maze) : Finset Pos :=
  (Finset.range m.width ×ˢ Finset.range m.height).filter (fun p => carved m p)

/-- Open passage-pairs, one canonical record per pair: the second cell
is the right or down neighbor of the first. -/
def edgeFinset (m : Maze) : Finset (Pos × Pos) :=
  ((Finset.range m.width ×ˢ Finset.range m.height) ×ˢ
   (Finset.range m.width ×ˢ Finset.range m.height)).filter
    (fun e => edgeOpen m e.1 e.2 ∧ (e.2.1 = e.1.1 + 1 ∨ e.2.2 = e.1.2 + 1))

/-- generators.rs `struct Wilson`. -/
structure Wilson where
  walk : List Pos
  first_walk_target : Option Pos
  opposite_of_last_direction : Option Direction
  current_walk_steps : Nat
deriving DecidableEq, Repr

/-- `Wilson::pos_in_stack`: index of the first walk entry equal to the
given position. -/
def pos_in_stack : List Pos → Pos → Option Nat
  | [], _ => none
  | q :: rest, p => if p = q then some 0 else (pos_in_stack rest p).map (· + 1)

/-- `Wilson::finish_walk`: carve between consecutive walk entries, in
walk order. -/
def finish_walk : List Pos → Maze → Maze
  | [], m => m
  | [_], m => m
  | a :: b :: rest, m =>
    finish_walk (b :: rest) (m.carve a.1 a.2 (directionBetween a b))

/-- `Wilson::create_new_walk` over a draw stream: clear the walk,
collect the uncarved cells (via `i_to_xy`), report completion when none
is left, otherwise restart the walk at a randomly chosen one and clear
the stored opposite direction.  `none` models stream exhaustion. -/
def create_new_walk (m : Maze) (s : Wilson) (stream : List Nat) :
    Option ((Wilson × Bool) × List Nat) :=
  let possible := (List.range m.cells.length).filterMap
    (fun i => if m.cells.getD i 0 = 0 then some ((i % m.width, i / m.width) : Pos) else none)
  if possible = [] then
    some ((⟨[], s.first_walk_target, s.opposite_of_last_direction,
      s.current_walk_steps⟩, true), stream)
  else
    match stream with
    | [] => none
    | k :: rest =>
      some ((⟨[possible.getD (k % possible.length) (0, 0)],
        s.first_walk_target, none, s.current_walk_steps⟩, false), rest)

/-- `Wilson::step` (generators.rs:198-244) over a draw stream: an empty
walk reports completion; otherwise draw an acceptable raw neighbor of
the walk end, erase the loop if it is already in the walk, push it, and
when it hits a carved cell or the first-walk target, commit the walk
with `finish_walk` and start a new one.  `none` models exhaustion of
the draw stream inside an unbounded redraw loop. -/
def wilsonStep (m : Maze) (s : Wilson) (stream : List Nat) :
    Option ((Wilson × Maze × Bool) × List Nat) :=
  match s.walk.getLast? with
  | none => some ((s, m, true), stream)
  | some pos =>
    match wilsonDraw (m.get_neighbors pos) s.opposite_of_last_direction stream with
    | none => none
    | some (nxt, rest) =>
      match pos_in_stack s.walk nxt.1 with
      | some break_index =>
        some ((⟨s.walk.take (break_index + 1), s.first_walk_target,
          s.opposite_of_last_direction, s.current_walk_steps⟩, m, false), rest)
      | none =>
        let s1 : Wilson := ⟨s.walk ++ [nxt.1], s.first_walk_target,
          some nxt.2.opposite, s.current_walk_steps + 1⟩
        if m.cellAt nxt.1 ≠ 0 then
          let m2 := finish_walk s1.walk m
          match create_new_walk m2 ⟨s1.walk, none, s1.opposite_of_last_direction,
              s1.current_walk_steps⟩ rest with
          | none => none
          | some ((s2, done), rest2) => some ((s2, m2, done), rest2)
        else
          match s.first_walk_target with
          | some target =>
            if target = nxt.1 then
              let m2 := finish_walk s1.walk m
              match create_new_walk m2 ⟨s1.walk, none, s1.opposite_of_last_direction,
                  s1.current_walk_steps⟩ rest with
              | none => none
              | some ((s2, done), rest2) => some ((s2, m2, done), rest2)
            else some ((s1, m, false), rest)
          | none => some ((s1, m, false), rest)

/-- The retry loop in `Wilson::new` drawing an end cell different from
the start. -/
def drawEndLoop (bounds start : Pos) : List Nat → Option (Pos × List Nat)
  | e1 :: e2 :: rest =>
    let nxt : Pos := (e1 % bounds.1, e2 % bounds.2)
    if nxt = start then drawEndLoop bounds start rest else some (nxt, rest)
  | _ => none

/-- `Wilson::new`: draw a start cell and a distinct end cell.  `none`
models the `random_range` panic on an empty range and stream exhaustion
in the retry loop (on a 1x1 grid that loop never finds a distinct
end). -/
def wilsonNew (bounds : Pos) (stream : List Nat) : Option (Wilson × List Nat) :=
  if bounds.1 = 0 ∨ bounds.2 = 0 then none
  else
    match stream with
    | s1 :: s2 :: rest =>
      let start : Pos := (s1 % bounds.1, s2 % bounds.2)
      match drawEndLoop bounds start rest with
      | none => none
      | some (endCell, rest2) => some (⟨[start], some endCell, none, 0⟩, rest2)
    | _ => none

/-- Iterate `Wilson::step`, threading maze and stream; the flag is the
last step return value. -/
def wilsonRun (m : Maze) (s : Wilson) (stream : List Nat) :
    Nat → Option (Wilson × Maze × List Nat × Bool)
  | 0 => some (s, m, stream, false)
  | n + 1 =>
    match wilsonRun m s stream n with
    | none => none
    | some (s1, m1, st1, _) =>
      match wilsonStep m1 s1 st1 with
      | none => none
      | some ((s2, m2, done), st2) => some (s2, m2, st2, done)

/-- The primitive cell update both halves of `open` reduce to: OR a bit
into one slot of the cell array. -/
def orAt (m : Maze) (i b : Nat) : Maze :=
  ⟨m.width, m.height, m.cells.set i (m.cells.getD i 0 ||| b)⟩

/-- Attach a fresh leaf: if the maze gains exactly the passage between a
fresh cell and a carved cell, the tree certificate extends. -/
def cert_add_leaf {m m2 : Maze} (C : TreeCert m) {a b : Pos}
    (hedges : ∀ p q, edgeOpen m2 p q ↔
      edgeOpen m p q ∨ (p = a ∧ q = b) ∨ (p = b ∧ q = a))
    (hcarv : ∀ p, carved m2 p ↔ carved m p ∨ p = a ∨ p = b)
    (hfa : ¬ carved m a) (hcb : carved m b) : TreeCert m2 where
  root := C.root
  parent := fun p => if p = a then some b else C.parent p
  depth := fun p => if p = a then C.depth b + 1 else C.depth p
  hroot := (hcarv C.root).mpr (Or.inl C.hroot)
  hnone := by
    have hra : C.root ≠ a := fun h => hfa (by rw [← h]; exact C.hroot)
    show (if C.root = a then some b else C.parent C.root) = none
    rw [if_neg hra, C.hnone]
  hsome := by
    intro p hp hpr
    show (if p = a then some b else C.parent p).isSome
    by_cases hpa : p = a
    · rw [if_pos hpa]; rfl
    · rw [if_neg hpa]
      rcases (hcarv p).mp hp with h | h | h
      · exact C.hsome p h hpr
      · exact absurd h hpa
      · exact C.hsome p (by rw [h]; exact hcb) hpr
  hedge := by
    intro p q hpq
    have hpq2 : (if p = a then some b else C.parent p) = some q := hpq
    by_cases hpa : p = a
    · rw [if_pos hpa] at hpq2
      injection hpq2 with hqb
      have hqa : q ≠ a := by
        intro h
        have hh : a = b := by rw [← h]; exact hqb.symm
        exact hfa (by rw [hh]; exact hcb)
      constructor
      · exact (hedges p q).mpr (Or.inr (Or.inl ⟨hpa, hqb.symm⟩))
      · show (if p = a then C.depth b + 1 else C.depth p) =
          (if q = a then C.depth b + 1 else C.depth q) + 1
        rw [if_pos hpa, if_neg hqa, ← hqb]
    · rw [if_neg hpa] at hpq2
      obtain ⟨he, hd⟩ := C.hedge p q hpq2
      have hec : ∀ (p q : Pos), edgeOpen m p q → carved m p ∧ carved m q := by
        intro p q hpq
        refine ⟨⟨hpq.1, ?_⟩, hpq.2.1, ?_⟩
        · intro hv
          have hb := hpq.2.2.2.1
          rw [hv] at hb
          exact hb (Nat.zero_and _)
        · intro hv
          have hb := hpq.2.2.2.2
          rw [hv] at hb
          exact hb (Nat.zero_and _)
      have hqa : q ≠ a := fun h => hfa (by rw [← h]; exact (hec _ _ he).2)
      constructor
      · exact (hedges p q).mpr (Or.inl he)
      · show (if p = a then C.depth b + 1 else C.depth p) =
          (if q = a then C.depth b + 1 else C.depth q) + 1
        rw [if_neg hpa, if_neg hqa]
        exact hd
  hcov := by
    intro p q hpq
    have hec : ∀ (p q : Pos), edgeOpen m p q → carved m p ∧ carved m q := by
      intro p q hpq
      refine ⟨⟨hpq.1, ?_⟩, hpq.2.1, ?_⟩
      · intro hv
        have hb := hpq.2.2.2.1
        rw [hv] at hb
        exact hb (Nat.zero_and _)
      · intro hv
        have hb := hpq.2.2.2.2
        rw [hv] at hb
        exact hb (Nat.zero_and _)
    rcases (hedges p q).mp hpq with h | ⟨hpa, hqb⟩ | ⟨hpb, hqa⟩
    · have hpa : p ≠ a := fun hh => hfa (by rw [← hh]; exact (hec _ _ h).1)
      have hqa : q ≠ a := fun hh => hfa (by rw [← hh]; exact (hec _ _ h).2)
      rcases C.hcov p q h with hh | hh
      · left
        show (if p = a then some b else C.parent p) = some q
        rw [if_neg hpa]; exact hh
      · right
        show (if q = a then some b else C.parent q) = some p
        rw [if_neg hqa]; exact hh
    · left
      show (if p = a then some b else C.parent p) = some q
      rw [if_pos hpa, hqb]
    · right
      show (if q = a then some b else C.parent q) = some p
      rw [if_pos hqa, hpb]

/-- The first passage of an empty maze certifies a two-cell tree. -/
def cert_first_edge {m m2 : Maze} {a b : Pos}
    (hzero : ∀ p, ¬ carved m p)
    (hedges : ∀ p q, edgeOpen m2 p q ↔
      edgeOpen m p q ∨ (p = a ∧ q = b) ∨ (p = b ∧ q = a))
    (hcarv : ∀ p, carved m2 p ↔ carved m p ∨ p = a ∨ p = b)
    (hab : a ≠ b) : TreeCert m2 where
  root := b
  parent := fun p => if p = a then some b else none
  depth := fun p => if p = a then 1 else 0
  hroot := (hcarv b).mpr (Or.inr (Or.inr rfl))
  hnone := by
    show (if b = a then some b else none) = none
    rw [if_neg (Ne.symm hab)]
  hsome := by
    intro p hp hpb
    show (if p = a then some b else none).isSome
    rcases (hcarv p).mp hp with h | h | h
    · exact absurd h (hzero p)
    · rw [if_pos h]; rfl
    · exact absurd h hpb
  hedge := by
    intro p q hpq
    have hpq2 : (if p = a then some b else none) = some q := hpq
    by_cases hpa : p = a
    · rw [if_pos hpa] at hpq2
      injection hpq2 with hqb
      have hqa : q ≠ a := by
        intro h
        apply hab
        rw [← h]
        exact hqb.symm
      constructor
      · exact (hedges p q).mpr (Or.inr (Or.inl ⟨hpa, hqb.symm⟩))
      · show (if p = a then 1 else 0) = (if q = a then 1 else 0) + 1
        rw [if_pos hpa, if_neg hqa]
    · rw [if_neg hpa] at hpq2
      exact Option.noConfusion hpq2
  hcov := by
    intro p q hpq
    have hec : ∀ (p q : Pos), edgeOpen m p q → carved m p ∧ carved m q := by
      intro p q hpq
      refine ⟨⟨hpq.1, ?_⟩, hpq.2.1, ?_⟩
      · intro hv
        have hb := hpq.2.2.2.1
        rw [hv] at hb
        exact hb (Nat.zero_and _)
      · intro hv
        have hb := hpq.2.2.2.2
        rw [hv] at hb
        exact hb (Nat.zero_and _)
    rcases (hedges p q).mp hpq with h | ⟨hpa, hqb⟩ | ⟨hpb, hqa⟩
    · exact absurd (hec _ _ h).1 (hzero p)
    · left
      show (if p = a then some b else none) = some q
      rw [if_pos hpa, hqb]
    · right
      show (if q = a then some b else none) = some p
      rw [if_pos hqa, hpb]

/-- The Wilson generator invariant: the maze is either fully uncarved
or certified as a tree over its carved cells, the current walk is a
self-avoiding adjacent path of uncarved in-bounds cells, the first-walk
target only survives while the maze is fully uncarved, and an empty
walk means every cell is carved. -/
structure WInv (w h : Nat) (m : Maze) (s : Wilson) : Prop where
  hwidth : m.width = w
  hheight : m.height = h
  hwf : m.wf
  hmaze : (∀ p, ¬ carved m p) ∨ Nonempty (TreeCert m)
  hnd : s.walk.Nodup
  hch : s.walk.Chain' adjacent
  hmem : ∀ r ∈ s.walk, m.inB r ∧ m.cellAt r = 0
  htarget : ∀ t, s.first_walk_target = some t → ∀ p, ¬ carved m p
  hempty : s.walk = [] → ∀ p, m.inB p → carved m p

theorem Maze.new_wf (w h : Nat) : (Maze.new w h).wf := by
  simp [Maze.new, Maze.wf]

theorem idx_inj {m : Maze} {x y x' y' : Nat} (hx : x < m.width)
    (hx' : x' < m.width) (h : y * m.width + x = y' * m.width + x') :
    x = x' ∧ y = y' := by
  have hyy : y = y' := by
    rcases Nat.lt_trichotomy y y' with hlt | heq | hgt
    · exfalso
      have : y * m.width + m.width ≤ y' * m.width := by
        have := Nat.succ_le_of_lt hlt
        calc y * m.width + m.width = (y + 1) * m.width := by ring
          _ ≤ y' * m.width := Nat.mul_le_mul_right _ this
      omega
    · exact heq
    · exfalso
      have : y' * m.width + m.width ≤ y * m.width := by
        have := Nat.succ_le_of_lt hgt
        calc y' * m.width + m.width = (y' + 1) * m.width := by ring
          _ ≤ y * m.width := Nat.mul_le_mul_right _ this
      omega
  refine ⟨?_, hyy⟩
  subst hyy
  omega

theorem idx_lt {m : Maze} (hm : m.wf) {x y : Nat} (hx : x < m.width)
    (hy : y < m.height) : y * m.width + x < m.cells.length := by
  rw [hm]
  calc y * m.width + x < y * m.width + m.width := by omega
    _ = (y + 1) * m.width := by ring
    _ ≤ m.height * m.width := Nat.mul_le_mul_right _ (by omega)
    _ = m.width * m.height := Nat.mul_comm _ _

theorem openDir_wf {m : Maze} (hm : m.wf) (x y : Nat) (d : Direction) :
    (m.openDir x y d).wf := by
  simpa [Maze.openDir, Maze.wf] using hm

theorem carve_wf {m : Maze} (hm : m.wf) (x y : Nat) (d : Direction) :
    (m.carve x y d).wf := by
  unfold Maze.carve
  exact openDir_wf (openDir_wf hm _ _ _) _ _ _

theorem openDir_dims (m : Maze) (x y : Nat) (d : Direction) :
    (m.openDir x y d).width = m.width ∧ (m.openDir x y d).height = m.height := by
  simp [Maze.openDir]

theorem carve_dims (m : Maze) (x y : Nat) (d : Direction) :
    (m.carve x y d).width = m.width ∧ (m.carve x y d).height = m.height := by
  simp [Maze.carve, Maze.openDir]

theorem getD_set_self {l : List Nat} {i : Nat} (h : i < l.length) (v d : Nat) :
    (l.set i v).getD i d = v := by
  simp [List.getD, List.getElem?_set, h]

theorem getD_set_other {l : List Nat} {i j : Nat} (h : i ≠ j) (v d : Nat) :
    (l.set i v).getD j d = l.getD j d := by
  simp [List.getD, List.getElem?_set, h]

/-- Cell values after `open`: the targeted in-bounds cell gains the bit,
all other cells are untouched. -/
theorem cellAt_openDir {m : Maze} (hm : m.wf) {x y : Nat}
    (hx : x < m.width) (hy : y < m.height) (d : Direction) (p : Pos)
    (hp : m.inB p) :
    (m.openDir x y d).cellAt p =
      if p = (x, y) then m.cellAt p ||| d.bit else m.cellAt p := by
  obtain ⟨px, py⟩ := p
  by_cases h : (px, py) = (x, y)
  · rw [if_pos h]
    have hpx : px = x := by rw [Prod.mk.injEq] at h; exact h.1
    have hpy : py = y := by rw [Prod.mk.injEq] at h; exact h.2
    subst hpx; subst hpy
    unfold Maze.openDir Maze.cellAt
    exact getD_set_self (idx_lt hm hx hy) _ _
  · rw [if_neg h]
    unfold Maze.openDir Maze.cellAt
    refine getD_set_other ?_ _ _
    intro hc
    obtain ⟨h1, h2⟩ := idx_inj hx hp.1 hc
    exact h (by simp [h1, h2])

theorem cellAt_openDir_out {m : Maze} (hm : m.wf) {x y : Nat}
    (hx : x < m.width) (hy : y < m.height) (d : Direction) (p : Pos)
    (hp : m.inB p) (hne : p ≠ (x, y)) :
    (m.openDir x y d).cellAt p = m.cellAt p := by
  rw [cellAt_openDir hm hx hy d p hp]
  simp [hne]

theorem Direction.bit_eq_pow (d : Direction) : d.bit = 2 ^ d.idx := by
  cases d <;> rfl

theorem hasBit_iff (v : Nat) (d : Direction) :
    hasBit v d ↔ v.testBit d.idx = true := by
  unfold hasBit
  rw [d.bit_eq_pow, Nat.and_two_pow]
  cases h : v.testBit d.idx
  · simp
  · simp [(Nat.two_pow_pos d.idx).ne']

theorem hasBit_zero (d : Direction) : ¬ hasBit 0 d := by
  cases d <;> decide

theorem hasBit_or (v : Nat) (b d : Direction) :
    hasBit (v ||| b.bit) d ↔ hasBit v d ∨ b = d := by
  rw [hasBit_iff, hasBit_iff]
  rw [Nat.testBit_or, b.bit_eq_pow, Nat.testBit_two_pow]
  have hidx : b.idx = d.idx ↔ b = d := by
    cases b <;> cases d <;> simp [Direction.idx]
  cases h : v.testBit d.idx <;> simp [hidx]

theorem idx_inj_pos {m : Maze} {p q : Pos} (hp : m.inB p) (hq : m.inB q)
    (h : p.2 * m.width + p.1 = q.2 * m.width + q.1) : p = q := by
  obtain ⟨h1, h2⟩ := idx_inj hp.1 hq.1 h
  obtain ⟨px, py⟩ := p
  obtain ⟨qx, qy⟩ := q
  simp only [Prod.mk.injEq]
  exact ⟨h1, h2⟩

/-- The two cells touched by a guarded carve are distinct. -/
theorem travel_ne {m : Maze} {x y : Nat} {d : Direction}
    (hok : m.travelOk x y d) : d.travel (x, y) ≠ (x, y) := by
  cases d <;> simp [Direction.travel, Prod.mk.injEq] <;>
    simp [Maze.travelOk] at hok <;> omega

theorem travel_inB {m : Maze} {x y : Nat} {d : Direction}
    (hx : x < m.width) (hy : y < m.height) (hok : m.travelOk x y d) :
    m.inB (d.travel (x, y)) := by
  cases d <;> simp [Direction.travel, Maze.inB] <;>
    simp [Maze.travelOk] at hok <;> omega

/-- Cell values after a guarded carve: (x,y) gains the bit of `d`, the
neighbor gains the opposite bit, everything else is untouched. -/
theorem cellAt_carve {m : Maze} (hm : m.wf) {x y : Nat} {d : Direction}
    (hx : x < m.width) (hy : y < m.height) (hok : m.travelOk x y d)
    (p : Pos) (hp : m.inB p) :
    (m.carve x y d).cellAt p =
      if p = (x, y) then m.cellAt p ||| d.bit
      else if p = d.travel (x, y) then m.cellAt p ||| d.opposite.bit
      else m.cellAt p := by
  have htb := travel_inB hx hy hok
  have htne := travel_ne (m := m) hok
  unfold Maze.carve
  have h1 := cellAt_openDir hm hx hy d p hp
  have hwf1 : (m.openDir x y d).wf := openDir_wf hm _ _ _
  have hdims := openDir_dims m x y d
  have hp1 : (m.openDir x y d).inB p := by
    unfold Maze.inB at hp ⊢; rw [hdims.1, hdims.2]; exact hp
  rcases ht : d.travel (x, y) with ⟨tx, ty⟩
  rw [ht] at htb htne
  have h2 := cellAt_openDir hwf1 (x := tx) (y := ty)
    (by rw [hdims.1]; exact htb.1) (by rw [hdims.2]; exact htb.2) d.opposite p hp1
  simp only [ht]
  rw [h2]
  by_cases hcase : p = (x, y)
  · subst hcase
    rw [if_neg (fun hc => htne (Eq.symm hc)), if_pos rfl, h1, if_pos rfl]
  · by_cases hcase2 : p = (tx, ty)
    · rw [if_pos hcase2, if_neg hcase, if_pos hcase2, h1, if_neg hcase]
    · rw [if_neg hcase2, if_neg hcase, if_neg hcase2, h1, if_neg hcase]

theorem mem_gtn_left (m : Maze) (p : Pos) (h : 0 < p.1)
    (hb : hasBit (m.cellAt p) .LEFT) :
    (p.1 - 1, p.2) ∈ m.get_travellable_neighbors p := by
  unfold hasBit at hb
  unfold Maze.get_travellable_neighbors
  simp only [List.mem_append]
  exact Or.inl (Or.inl (Or.inl (by rw [if_pos ⟨h, hb⟩]; exact List.mem_singleton.mpr rfl)))

theorem mem_gtn_right (m : Maze) (p : Pos) (h : p.1 + 1 < m.width)
    (hb : hasBit (m.cellAt p) .RIGHT) :
    (p.1 + 1, p.2) ∈ m.get_travellable_neighbors p := by
  unfold hasBit at hb
  unfold Maze.get_travellable_neighbors
  simp only [List.mem_append]
  exact Or.inl (Or.inl (Or.inr (by rw [if_pos ⟨h, hb⟩]; exact List.mem_singleton.mpr rfl)))

theorem mem_gtn_up (m : Maze) (p : Pos) (h : 0 < p.2)
    (hb : hasBit (m.cellAt p) .UP) :
    (p.1, p.2 - 1) ∈ m.get_travellable_neighbors p := by
  unfold hasBit at hb
  unfold Maze.get_travellable_neighbors
  simp only [List.mem_append]
  exact Or.inl (Or.inr (by rw [if_pos ⟨h, hb⟩]; exact List.mem_singleton.mpr rfl))

theorem mem_gtn_down (m : Maze) (p : Pos) (h : p.2 + 1 < m.height)
    (hb : hasBit (m.cellAt p) .DOWN) :
    (p.1, p.2 + 1) ∈ m.get_travellable_neighbors p := by
  unfold hasBit at hb
  unfold Maze.get_travellable_neighbors
  simp only [List.mem_append]
  exact Or.inr (by rw [if_pos ⟨h, hb⟩]; exact List.mem_singleton.mpr rfl)

/-- C8 (claim): after a guarded `carve(x,y,dir)` the travellable
neighbors of (x,y) contain the target cell and vice versa. -/
theorem carve_symmetric (m : Maze) (x y : Nat) (d : Direction)
    (hm : m.wf) (hx : x < m.width) (hy : y < m.height)
    (hok : m.travelOk x y d) :
    d.travel (x, y) ∈ (m.carve x y d).get_travellable_neighbors (x, y) ∧
    (x, y) ∈ (m.carve x y d).get_travellable_neighbors (d.travel (x, y)) := by
  have hself := cellAt_carve hm hx hy hok (x, y) ⟨hx, hy⟩
  rw [if_pos rfl] at hself
  have htgt := cellAt_carve hm hx hy hok (d.travel (x, y)) (travel_inB hx hy hok)
  rw [if_neg (travel_ne hok), if_pos rfl] at htgt
  have hdims := carve_dims m x y d
  have hb1 : hasBit ((m.carve x y d).cellAt (x, y)) d := by
    rw [hself, hasBit_or]; right; rfl
  have hb2 : hasBit ((m.carve x y d).cellAt (d.travel (x, y))) d.opposite := by
    rw [htgt, hasBit_or]; right; rfl
  cases d
  case UP =>
    simp only [Maze.travelOk] at hok
    refine ⟨mem_gtn_up _ (x, y) hok hb1, ?_⟩
    have := mem_gtn_down (m.carve x y .UP) (Direction.UP.travel (x, y))
      (by simp only [Direction.travel]; rw [hdims.2]; omega) hb2
    simp only [Direction.travel] at this ⊢
    have hyy : y - 1 + 1 = y := by omega
    rw [hyy] at this
    exact this
  case DOWN =>
    simp only [Maze.travelOk] at hok
    refine ⟨mem_gtn_down _ (x, y) (by rw [hdims.2]; exact hok) hb1, ?_⟩
    have := mem_gtn_up (m.carve x y .DOWN) (Direction.DOWN.travel (x, y))
      (by simp [Direction.travel]) hb2
    simp only [Direction.travel] at this ⊢
    simpa using this
  case LEFT =>
    simp only [Maze.travelOk] at hok
    refine ⟨mem_gtn_left _ (x, y) hok hb1, ?_⟩
    have := mem_gtn_right (m.carve x y .LEFT) (Direction.LEFT.travel (x, y))
      (by simp only [Direction.travel]; rw [hdims.1]; omega) hb2
    simp only [Direction.travel] at this ⊢
    have hxx : x - 1 + 1 = x := by omega
    rw [hxx] at this
    exact this
  case RIGHT =>
    simp only [Maze.travelOk] at hok
    refine ⟨mem_gtn_right _ (x, y) (by rw [hdims.1]; exact hok) hb1, ?_⟩
    have := mem_gtn_left (m.carve x y .RIGHT) (Direction.RIGHT.travel (x, y))
      (by simp [Direction.travel]) hb2
    simp only [Direction.travel] at this ⊢
    simpa using this

theorem carve_symmetric_witness :
    (Maze.new 2 2).wf ∧ (0 : Nat) < 2 ∧ (0 : Nat) < 2 ∧
      (Maze.new 2 2).travelOk 0 0 .RIGHT ∧
      ((Direction.RIGHT.travel (0, 0) ∈
          ((Maze.new 2 2).carve 0 0 .RIGHT).get_travellable_neighbors (0, 0)) ∧
        ((0, 0) ∈ ((Maze.new 2 2).carve 0 0 .RIGHT).get_travellable_neighbors
          (Direction.RIGHT.travel (0, 0)))) :=
  ⟨by decide, by decide, by decide, by decide,
    carve_symmetric (Maze.new 2 2) 0 0 .RIGHT (by decide) (by decide)
      (by decide) (by decide)⟩

theorem chase_ne_nil {β : Type} {get : β → Option Pos} {mp : List (Pos × β)}
    {p : Pos} {fuel : Nat} {l : List Pos}
    (h : chase get mp p fuel = some l) : l ≠ [] := by
  cases fuel with
  | zero => simp [chase] at h
  | succ n =>
    unfold chase at h
    split at h
    · simp at h
    · split at h
      · simp only [Option.some.injEq] at h
        simp [← h]
      · rename_i b hb q hq
        cases hch : chase get mp q n with
        | none => rw [hch] at h; simp at h
        | some l2 =>
          rw [hch] at h
          simp only [Option.map_some', Option.some.injEq] at h
          simp [← h]

/-- C10: on the fully walled 2x2 grid the DFS solver pops its path
empty and the following step panics on `path.last().unwrap()`, and the
BFS solver empties its queue and the following step panics on
`queue.pop_front().unwrap()`; neither produces a result value. -/
theorem solvers_panic_on_unreachable_goal :
    (dfsStep (Maze.new 2 2) (dfsInit (2, 2)) =
      some (⟨[(0, 0)], [], (1, 1)⟩, none)) ∧
    dfsStep (Maze.new 2 2) ⟨[(0, 0)], [], (1, 1)⟩ = none ∧
    (bfsStep (Maze.new 2 2) (bfsInit (2, 2)) =
      some (⟨[], [((0, 0), none)], [], false, (1, 1)⟩, none)) ∧
    bfsStep (Maze.new 2 2) ⟨[], [((0, 0), none)], [], false, (1, 1)⟩ = none := by
  refine ⟨?_, ?_, ?_, ?_⟩ <;> decide

theorem dfsStep_some (m : Maze) (s s2 : DFSSolver) (p : List Pos)
    (h : dfsStep m s = some (s2, some p)) :
    dfsStep m s2 = some (s2, some p) := by
  simp only [dfsStep] at h
  split at h
  · simp at h
  · rename_i pos hl
    split at h
    · rename_i hend
      simp only [Option.some.injEq, Prod.mk.injEq, Option.some.injEq] at h
      obtain ⟨hs, hp⟩ := h
      subst hs
      subst hp
      simp [dfsStep, hl, hend]
    · split at h <;>
        simp only [Option.some.injEq, Prod.mk.injEq] at h <;>
        exact absurd h.2 (by simp)

theorem bfsStep_some (m : Maze) (s s2 : BFSSolver) (p : List Pos)
    (h : bfsStep m s = some (s2, some p)) :
    bfsStep m s2 = some (s2, some p) := by
  simp only [bfsStep] at h
  split at h
  · rename_i hfin
    simp only [Option.some.injEq, Prod.mk.injEq, Option.some.injEq] at h
    obtain ⟨hs, hp⟩ := h
    subst hs
    subst hp
    simp [bfsStep, hfin]
  · split at h
    · simp at h
    · rename_i pos rest hq
      split at h
      · split at h
        · simp at h
        · rename_i l hch
          simp only [Option.some.injEq, Prod.mk.injEq, Option.some.injEq] at h
          obtain ⟨hs, hp⟩ := h
          subst hp
          rw [← hs]
          simp [bfsStep]
      · simp only [Option.some.injEq, Prod.mk.injEq] at h
        exact absurd h.2 (by simp)

theorem astarStep_some (m : Maze) (s s2 : AStarSolver) (p : List Pos)
    (h : astarStep m s = some (s2, some p)) :
    astarStep m s2 = some (s2, some p) := by
  simp only [astarStep] at h
  split at h
  · split at h
    · split at h
      · simp at h
      · rename_i l hch
        simp only [Option.some.injEq, Prod.mk.injEq, Option.some.injEq] at h
        obtain ⟨hs, hp⟩ := h
        subst hp
        rw [← hs]
        have hne : ¬(l.reverse.isEmpty = true) := by
          simp only [List.isEmpty_iff, List.reverse_eq_nil_iff]
          exact chase_ne_nil hch
        simp [astarStep, hne]
    · simp only [Option.some.injEq, Prod.mk.injEq] at h
      exact absurd h.2 (by simp)
  · rename_i hemp
    simp only [Option.some.injEq, Prod.mk.injEq, Option.some.injEq] at h
    obtain ⟨hs, hp⟩ := h
    subst hs
    subst hp
    simp [astarStep, hemp]

/-- C9: once any of the three solvers has returned a finished path,
calling `step` again returns the same path and leaves the solver
unchanged. -/
theorem step_idempotent_after_finish (m : Maze) (a a2 : Algorithm)
    (p : List Pos) (h : Algorithm.step m a = some (a2, some p)) :
    Algorithm.step m a2 = some (a2, some p) := by
  cases a with
  | DepthFirstSearch s =>
    simp only [Algorithm.step, Option.map_eq_some'] at h
    obtain ⟨⟨s2, r⟩, hstep, heq⟩ := h
    simp only [Prod.mk.injEq] at heq
    obtain ⟨ha2, hr⟩ := heq
    subst hr
    rw [← ha2]
    simp only [Algorithm.step, dfsStep_some m s s2 p hstep]
    simp
  | BreadthFirstSearch s =>
    simp only [Algorithm.step, Option.map_eq_some'] at h
    obtain ⟨⟨s2, r⟩, hstep, heq⟩ := h
    simp only [Prod.mk.injEq] at heq
    obtain ⟨ha2, hr⟩ := heq
    subst hr
    rw [← ha2]
    simp only [Algorithm.step, bfsStep_some m s s2 p hstep]
    simp
  | AStar s =>
    simp only [Algorithm.step, Option.map_eq_some'] at h
    obtain ⟨⟨s2, r⟩, hstep, heq⟩ := h
    simp only [Prod.mk.injEq] at heq
    obtain ⟨ha2, hr⟩ := heq
    subst hr
    rw [← ha2]
    simp only [Algorithm.step, astarStep_some m s s2 p hstep]
    simp

theorem step_idempotent_witness :
    (Algorithm.step (Maze.new 1 1) (.BreadthFirstSearch (bfsInit (1, 1))) =
      some (.BreadthFirstSearch ⟨[], [((0, 0), none)], [(0, 0)], true, (0, 0)⟩,
        some [(0, 0)])) ∧
    Algorithm.step (Maze.new 1 1)
        (.BreadthFirstSearch ⟨[], [((0, 0), none)], [(0, 0)], true, (0, 0)⟩) =
      some (.BreadthFirstSearch ⟨[], [((0, 0), none)], [(0, 0)], true, (0, 0)⟩,
        some [(0, 0)]) :=
  ⟨by decide,
    step_idempotent_after_finish (Maze.new 1 1)
      (.BreadthFirstSearch (bfsInit (1, 1)))
      (.BreadthFirstSearch ⟨[], [((0, 0), none)], [(0, 0)], true, (0, 0)⟩)
      [(0, 0)] (by decide)⟩

/-- C6 counterexample: `[0,3,255,35]` has a 4-nibble cell area and
width 3 — `cellCount` is not divisible by `width` — yet decode returns
a grid (floored height), not an error; and the truncated buffer `[]`
crashes (models as `none`) instead of returning an error. -/
theorem claim_C6_counterexample :
    decode_maze [0, 3, 255, 35] = some (.ok ⟨3, 1, [15, 15, 2, 3]⟩) ∧
    decode_maze [] = none := by
  constructor <;> rfl

theorem decode_no_error (data : List Nat) (e : String) :
    decode_maze data ≠ some (.error e) := by
  simp only [decode_maze]
  split
  · simp
  · split
    · simp
    · split
      · simp
      · simp

theorem decode_short_none (data : List Nat) (h : data.length < 3) :
    decode_maze data = none := by
  simp only [decode_maze]
  split
  · rfl
  · rename_i hlen
    have hdrop : data.drop 2 = [] := List.drop_eq_nil_of_le (by omega)
    rw [hdrop]
    rfl

/-- C6 (amended): decode never returns an error value; buffers shorter
than 3 bytes and zero widths crash (modelled `none`); a cell count not
divisible by the width silently yields a grid with the floored height. -/
theorem decode_malformed_behavior :
    (∀ data e, decode_maze data ≠ some (.error e)) ∧
    (∀ data, data.length < 3 → decode_maze data = none) ∧
    (∀ data, data.getD 0 0 = 0 → data.getD 1 0 = 0 → decode_maze data = none) ∧
    decode_maze [0, 3, 255, 35] = some (.ok ⟨3, 1, [15, 15, 2, 3]⟩) := by
  refine ⟨decode_no_error, decode_short_none, ?_, rfl⟩
  intro data h0 h1
  simp only [decode_maze]
  split
  · rfl
  · split
    · rfl
    · rw [h0, h1]
      simp

theorem decode_malformed_behavior_witness :
    ([] : List Nat).length < 3 ∧ decode_maze [] = none :=
  ⟨by decide, decode_malformed_behavior.2.1 [] (by decide)⟩

theorem nibble_hi : ∀ c1 < 16, ∀ c2 < 16,
    (((c1 <<< 4) &&& 255) ||| c2) >>> 4 = c1 := by decide

theorem nibble_lo : ∀ c1 < 16, ∀ c2 < 16,
    (((c1 <<< 4) &&& 255) ||| c2) &&& 15 = c2 := by decide

theorem packPairs_ne_nil : ∀ (l : List Nat), l ≠ [] → packPairs l ≠ []
  | [], h => absurd rfl h
  | [_], _ => by simp [packPairs]
  | _ :: _ :: _, _ => by simp [packPairs]

theorem unpack_pack : ∀ (l : List Nat), (∀ c ∈ l, c < 16) → ∀ i,
    unpackFrom (i * 2 + l.length) i (packPairs l) = l
  | [], _, i => by simp [packPairs, unpackFrom]
  | [c], h, i => by
    have hc : c < 16 := h c (by simp)
    simp only [packPairs, unpackFrom, List.length_singleton]
    rw [nibble_hi c hc 0 (by omega)]
    simp
  | c1 :: c2 :: rest, h, i => by
    have hc1 : c1 < 16 := h c1 (by simp)
    have hc2 : c2 < 16 := h c2 (by simp)
    have hrest : ∀ c ∈ rest, c < 16 := fun c hc => h c (by simp [hc])
    have IH := unpack_pack rest hrest (i + 1)
    simp only [packPairs, unpackFrom, List.length_cons]
    rw [nibble_hi c1 hc1 c2 hc2, nibble_lo c1 hc1 c2 hc2]
    rw [if_pos (by omega)]
    have harith : i * 2 + (rest.length + 1 + 1) = (i + 1) * 2 + rest.length := by ring
    rw [harith, IH]
    simp

/-- The `cell_count` recovered by decode equals the original cell count
whenever the final cell is non-zero. -/
theorem pack_cell_count : ∀ (l : List Nat), (∀ c ∈ l, c < 16) → ∀ c,
    l.getLast? = some c → c ≠ 0 →
    ∃ b, (packPairs l).getLast? = some b ∧
      (if b &&& 15 = 0 then (packPairs l).length * 2 - 1
        else (packPairs l).length * 2) = l.length
  | [], _, c, hl, _ => by simp at hl
  | [c1], h, c, hl, hc0 => by
    have hc1 : c1 < 16 := h c1 (by simp)
    refine ⟨((c1 <<< 4) &&& 255) ||| 0, by simp [packPairs], ?_⟩
    rw [if_pos (nibble_lo c1 hc1 0 (by omega))]
    simp [packPairs]
  | [c1, c2], h, c, hl, hc0 => by
    have hc1 : c1 < 16 := h c1 (by simp)
    have hc2 : c2 < 16 := h c2 (by simp)
    have hcl : c = c2 := by simp at hl; omega
    refine ⟨((c1 <<< 4) &&& 255) ||| c2, by simp [packPairs], ?_⟩
    rw [if_neg (by rw [nibble_lo c1 hc1 c2 hc2]; rw [← hcl]; exact hc0)]
    simp [packPairs]
  | c1 :: c2 :: r :: rest, h, c, hl, hc0 => by
    have hrest : ∀ x ∈ r :: rest, x < 16 := fun x hx => h x (by simp [hx])
    have hl2 : (r :: rest).getLast? = some c := by
      rw [← hl]
      rw [List.getLast?_cons_cons, List.getLast?_cons_cons]
    obtain ⟨b, hb, hcount⟩ := pack_cell_count (r :: rest) hrest c hl2 hc0
    refine ⟨b, ?_, ?_⟩
    · show ((((c1 <<< 4) &&& 255) ||| c2) :: packPairs (r :: rest)).getLast? = some b
      cases hpk : packPairs (r :: rest) with
      | nil => exact absurd hpk (packPairs_ne_nil _ (by simp))
      | cons q qs =>
        rw [hpk] at hb
        rw [List.getLast?_cons_cons]
        exact hb
    · show (if b &&& 15 = 0 then (packPairs (c1 :: c2 :: r :: rest)).length * 2 - 1
        else (packPairs (c1 :: c2 :: r :: rest)).length * 2) = _
      have hlen : (packPairs (c1 :: c2 :: r :: rest)).length =
          (packPairs (r :: rest)).length + 1 := by
        simp [packPairs]
      rw [hlen]
      have hnn : packPairs (r :: rest) ≠ [] := packPairs_ne_nil _ (by simp)
      have hpos : 1 ≤ (packPairs (r :: rest)).length :=
        List.length_pos.mpr hnn
      simp only [List.length_cons] at hcount ⊢
      split at hcount <;> rename_i hsplit
      · rw [if_pos hsplit]
        omega
      · rw [if_neg hsplit]
        omega

theorem width_bytes_roundtrip (w : Nat) (h : w ≤ 65535) :
    ((((w >>> 8) &&& 255) <<< 8) + (w &&& 255)) = w := by
  have h255 : (255 : Nat) = 2 ^ 8 - 1 := rfl
  have e1 : w >>> 8 = w / 256 := by
    rw [Nat.shiftRight_eq_div_pow]
  have hlt : w / 256 < 2 ^ 8 := by
    have := (Nat.div_lt_iff_lt_mul (by norm_num : (0 : Nat) < 256)).mpr
      (by omega : w < 256 * 256)
    simpa using this
  have e2 : (w / 256) &&& 255 = w / 256 := by
    rw [h255]
    exact Nat.and_pow_two_sub_one_of_lt_two_pow hlt
  have e3 : w &&& 255 = w % 256 := by
    rw [h255]
    exact Nat.and_pow_two_sub_one_eq_mod w 8
  rw [e1, e2, e3, Nat.shiftLeft_eq]
  have h256 : (2 : Nat) ^ 8 = 256 := rfl
  rw [h256]
  omega

/-- Decoding a buffer of at least 3 bytes, computed from its pieces. -/
theorem decode_cons (b0 b1 : Nat) (rest : List Nat) (bl : Nat)
    (hl : rest.getLast? = some bl) (hw : (b0 <<< 8) + b1 ≠ 0) :
    decode_maze (b0 :: b1 :: rest) =
      some (.ok ⟨(b0 <<< 8) + b1,
        (if bl &&& 15 = 0 then rest.length * 2 - 1 else rest.length * 2) /
          ((b0 <<< 8) + b1),
        unpackFrom
          (if bl &&& 15 = 0 then rest.length * 2 - 1 else rest.length * 2)
          0 rest⟩) := by
  simp only [decode_maze, List.length_cons, List.drop_succ_cons, List.drop_zero,
    List.getD_cons_zero, List.getD_cons_succ, hl]
  rw [if_neg (by omega), if_neg hw]

/-- C2: decoding the encoding of any well-formed grid whose final cell
is non-zero gives back the same grid. -/
theorem encode_decode_roundtrip (m : Maze) (hm : m.wf)
    (hw1 : 1 ≤ m.width) (hw2 : m.width ≤ 65535) (hh : 1 ≤ m.height)
    (hcells : ∀ c ∈ m.cells, c < 16) (c : Nat)
    (hlast : m.cells.getLast? = some c) (hc0 : c ≠ 0) :
    ∃ bytes, encode_maze m = .ok bytes ∧ decode_maze bytes = some (.ok m) := by
  obtain ⟨W, H, CS⟩ := m
  simp only [Maze.wf] at hm
  simp only at hw1 hw2 hh hcells hlast ⊢
  have hne : CS ≠ [] := by
    intro hc; rw [hc] at hlast; simp at hlast
  have henc : encode_maze ⟨W, H, CS⟩ =
      .ok ([(W >>> 8) &&& 255, W &&& 255] ++ packPairs CS) := by
    unfold encode_maze
    rw [if_neg (by simp only; omega)]
  refine ⟨_, henc, ?_⟩
  obtain ⟨b, hb, hcount⟩ := pack_cell_count CS hcells c hlast hc0
  have hwidth := width_bytes_roundtrip W hw2
  have hdec := decode_cons ((W >>> 8) &&& 255) (W &&& 255) (packPairs CS) b hb
    (by rw [hwidth]; omega)
  show decode_maze (((W >>> 8) &&& 255) :: ((W &&& 255)) :: packPairs CS) = _
  rw [hdec, hwidth, hcount]
  have hheight : CS.length / W = H := by
    rw [hm]
    exact Nat.mul_div_cancel_left H (by omega)
  have hcs : unpackFrom CS.length 0 (packPairs CS) = CS := by
    have := unpack_pack CS hcells 0
    simpa using this
  rw [hheight, hcs]

theorem encode_decode_roundtrip_witness :
    (Maze.mk 2 2 [6, 9, 3, 12]).wf ∧
    (∃ bytes, encode_maze ⟨2, 2, [6, 9, 3, 12]⟩ = .ok bytes ∧
      decode_maze bytes = some (.ok ⟨2, 2, [6, 9, 3, 12]⟩)) :=
  ⟨by decide,
    encode_decode_roundtrip ⟨2, 2, [6, 9, 3, 12]⟩ (by decide) (by decide)
      (by decide) (by decide) (by decide) 12 (by decide) (by decide)⟩

/-- C4 counterexample: with path `[(0,0),(0,1),(1,1)]` and visited
`{(0,0),(0,1)}`, the DFS step pushes (2,1) — the first unvisited entry
of the source order LEFT, RIGHT, UP, DOWN — while the claimed order
UP, RIGHT, DOWN, LEFT would select (1,0). -/
theorem claim_C4_counterexample :
    (dfsStep mazeC4 ⟨[(0, 0), (0, 1)], [(0, 0), (0, 1), (1, 1)], (2, 1)⟩ =
      some (⟨[(1, 1), (0, 0), (0, 1)], [(0, 0), (0, 1), (1, 1), (2, 1)], (2, 1)⟩,
        none)) ∧
    (claimOrderNeighbors mazeC4 (1, 1)).find?
      (fun q => decide (q ∉ [((0, 0) : Pos), (0, 1)])) = some (1, 0) ∧
    ((2, 1) : Pos) ≠ (1, 0) := by
  refine ⟨?_, ?_, ?_⟩ <;> decide

/-- C4 (amended): a DFS step at a non-goal position pushes the first
travellable neighbor not in `visited` with candidates enumerated in
the order LEFT, RIGHT, UP, DOWN; if none exists it marks the position
visited and pops it (the position is marked visited in both cases). -/
theorem dfs_step_neighbor_order (m : Maze) (s : DFSSolver) (pos : Pos)
    (hl : s.path.getLast? = some pos) (hne : pos ≠ s.endPos) :
    (∀ v, (amendedOrderNeighbors m pos).find?
        (fun q => decide (q ∉ s.visited)) = some v →
      dfsStep m s = some (⟨pos :: s.visited, s.path ++ [v], s.endPos⟩, none)) ∧
    ((amendedOrderNeighbors m pos).find?
        (fun q => decide (q ∉ s.visited)) = none →
      dfsStep m s = some (⟨pos :: s.visited, s.path.dropLast, s.endPos⟩, none)) := by
  have hea : amendedOrderNeighbors m pos = m.get_travellable_neighbors pos := rfl
  constructor
  · intro v hv
    rw [hea] at hv
    simp only [dfsStep, hl, if_neg hne, hv]
  · intro hv
    rw [hea] at hv
    simp only [dfsStep, hl, if_neg hne, hv]

theorem dfs_step_neighbor_order_witness :
    ([((0, 0) : Pos), (0, 1), (1, 1)].getLast? = some (1, 1)) ∧
    ((1, 1) : Pos) ≠ (2, 1) ∧
    dfsStep mazeC4 ⟨[(0, 0), (0, 1)], [(0, 0), (0, 1), (1, 1)], (2, 1)⟩ =
      some (⟨[(1, 1), (0, 0), (0, 1)], [(0, 0), (0, 1), (1, 1), (2, 1)], (2, 1)⟩,
        none) :=
  ⟨by decide, by decide,
    (dfs_step_neighbor_order mazeC4
      ⟨[(0, 0), (0, 1)], [(0, 0), (0, 1), (1, 1)], (2, 1)⟩ (1, 1)
      (by decide) (by decide)).1 (2, 1) (by decide)⟩

/-! ### C3: A* cost assignment -/

theorem gtn_ne_self (m : Maze) (p q : Pos)
    (h : q ∈ m.get_travellable_neighbors p) : q ≠ p := by
  unfold Maze.get_travellable_neighbors at h
  simp only [List.mem_append] at h
  obtain ⟨px, py⟩ := p
  rcases h with ((h | h) | h) | h <;>
    (split at h
     · rename_i hc
       simp only [List.mem_singleton] at h
       subst h
       intro hq
       rw [Prod.mk.injEq] at hq
       omega
     · simp at h)

theorem alookup_insertSorted_self (l : List (Pos × CellInformation)) (k : Pos)
    (v : CellInformation) (h : alookup l k = none) :
    alookup (insertSorted k v l) k = some v := by
  induction l with
  | nil => simp [insertSorted, alookup]
  | cons e rest ih =>
    obtain ⟨k2, v2⟩ := e
    simp only [alookup] at h
    by_cases hk : k = k2
    · rw [if_pos hk] at h; simp at h
    · rw [if_neg hk] at h
      simp only [insertSorted]
      split
      · simp [alookup]
      · simp only [alookup, if_neg hk]
        exact ih h

theorem alookup_insertSorted_other (l : List (Pos × CellInformation)) (k w : Pos)
    (v : CellInformation) (h : w ≠ k) :
    alookup (insertSorted k v l) w = alookup l w := by
  induction l with
  | nil => simp [insertSorted, alookup, if_neg h]
  | cons e rest ih =>
    obtain ⟨k2, v2⟩ := e
    simp only [insertSorted]
    split
    · simp only [alookup, if_neg h]
    · simp only [alookup]
      split
      · rfl
      · exact ih

theorem alookup_insertA_other {β : Type} (l : List (Pos × β)) (k w : Pos)
    (v : β) (h : w ≠ k) :
    alookup (insertA k v l) w = alookup l w := by
  induction l with
  | nil => simp [insertA, alookup, if_neg h]
  | cons e rest ih =>
    obtain ⟨k2, v2⟩ := e
    simp only [insertA]
    split
    · rename_i hk
      simp only [alookup, if_neg h]
      rw [← hk]
      simp [if_neg h]
    · simp only [alookup]
      split
      · rfl
      · exact ih

theorem alookup_removeKey_none {β : Type} (l : List (Pos × β)) (k w : Pos)
    (h : alookup l w = none) : alookup (removeKey k l) w = none := by
  induction l with
  | nil => simp [removeKey, alookup]
  | cons e rest ih =>
    obtain ⟨k2, v2⟩ := e
    simp only [alookup] at h
    by_cases hw : w = k2
    · rw [if_pos hw] at h; simp at h
    · rw [if_neg hw] at h
      simp only [removeKey, List.filter_cons]
      split
      · simp only [alookup, if_neg hw]
        exact ih h
      · exact ih h

theorem astarVisit_closed_step (ep cp : Pos) (cur : CellInformation)
    (acc : List (Pos × CellInformation) × List (Pos × CellInformation))
    (nb : Pos) : (astarVisit ep cp cur acc nb).2 = acc.2 := by
  simp only [astarVisit]
  split
  · rfl
  · rename_i hnone
    split
    · rename_i hdead
      exfalso
      have hn : alookup acc.2 nb = none := by
        cases hx : alookup acc.2 nb with
        | none => rfl
        | some y => exact absurd (by rw [hx]; rfl) hnone
      rw [hn] at hdead
      simp at hdead
    · rfl

theorem astarVisit_closed (ep cp : Pos) (cur : CellInformation) :
    ∀ (nbrs : List Pos)
      (acc : List (Pos × CellInformation) × List (Pos × CellInformation)),
      (List.foldl (astarVisit ep cp cur) acc nbrs).2 = acc.2
  | [], _ => rfl
  | nb :: rest, acc => by
    rw [List.foldl_cons]
    rw [astarVisit_closed ep cp cur rest _]
    exact astarVisit_closed_step ep cp cur acc nb

theorem astarVisit_open_preserved (ep cp : Pos) (cur : CellInformation) :
    ∀ (nbrs : List Pos)
      (acc : List (Pos × CellInformation) × List (Pos × CellInformation))
      (w : Pos) (x : CellInformation),
      alookup acc.1 w = some x →
      alookup (List.foldl (astarVisit ep cp cur) acc nbrs).1 w = some x
  | [], _, _, _, h => h
  | nb :: rest, acc, w, x, h => by
    rw [List.foldl_cons]
    refine astarVisit_open_preserved ep cp cur rest _ w x ?_
    simp only [astarVisit]
    split
    · exact h
    · split
      · exact h
      · simp only [orInsert]
        split
        · exact h
        · rename_i hio
          by_cases hw : w = nb
          · subst hw
            exact absurd (by rw [h]; rfl) hio
          · rw [alookup_insertSorted_other _ _ _ _ hw]
            exact h

theorem astarVisit_fresh (ep cp : Pos) (cur : CellInformation) :
    ∀ (nbrs : List Pos)
      (acc : List (Pos × CellInformation) × List (Pos × CellInformation))
      (w : Pos),
      w ∈ nbrs →
      alookup acc.2 w = none →
      alookup acc.1 w = none →
      alookup (List.foldl (astarVisit ep cp cur) acc nbrs).1 w =
        some ⟨cur.h_cost + 1 + (absDiff cp.1 ep.1 + absDiff cp.2 ep.2),
          absDiff cp.1 ep.1 + absDiff cp.2 ep.2, some cp⟩
  | [], _, _, hmem, _, _ => absurd hmem (by simp)
  | nb :: rest, acc, w, hmem, hcl, hop => by
    rw [List.foldl_cons]
    by_cases hw : nb = w
    · subst hw
      have hstep : alookup (astarVisit ep cp cur acc nb).1 nb =
          some ⟨cur.h_cost + 1 + (absDiff cp.1 ep.1 + absDiff cp.2 ep.2),
            absDiff cp.1 ep.1 + absDiff cp.2 ep.2, some cp⟩ := by
        simp only [astarVisit]
        rw [if_neg (by rw [hcl]; simp)]
        rw [if_neg (by rw [hcl]; simp)]
        simp only [orInsert]
        rw [if_neg (by rw [hop]; simp)]
        exact alookup_insertSorted_self _ _ _ hop
      exact astarVisit_open_preserved ep cp cur rest _ nb _ hstep
    · have hmem2 : w ∈ rest := by
        rcases List.mem_cons.mp hmem with h | h
        · exact absurd h.symm hw
        · exact h
      have hcl2 : alookup (astarVisit ep cp cur acc nb).2 w = none := by
        rw [astarVisit_closed_step]
        exact hcl
      have hop2 : alookup (astarVisit ep cp cur acc nb).1 w = none := by
        simp only [astarVisit]
        split
        · exact hop
        · split
          · exact hop
          · simp only [orInsert]
            split
            · exact hop
            · rw [alookup_insertSorted_other _ _ _ _ (fun hc => hw hc.symm)]
              exact hop
      exact astarVisit_fresh ep cp cur rest _ w hmem2 hcl2 hop2

/-- C3 (amended): when an A* step expands a cell `cp` other than the
goal, every travellable neighbor `w` of `cp` absent from `closed` and
from `open` is inserted into `open` with heuristic
`|cp.x - end.x| + |cp.y - end.y|` (Manhattan from the current cell, as
the claim says) but with cost `current.h_cost + 1 + heuristic` — the
stored cost field is built from the expanded cell's heuristic plus
one, not from its cost-so-far plus one. -/
theorem astar_fresh_neighbor_assignment (m : Maze) (s : AStarSolver) (w : Pos)
    (hpath : s.path = [])
    (hne : (scanMin s.open_).1 ≠ s.endPos)
    (hw : w ∈ m.get_travellable_neighbors (scanMin s.open_).1)
    (hwcl : alookup s.closed w = none)
    (hwop : alookup s.open_ w = none) :
    ∃ s2, astarStep m s = some (s2, none) ∧
      s2.closed = insertA (scanMin s.open_).1 (scanMin s.open_).2 s.closed ∧
      alookup s2.open_ w =
        some ⟨(scanMin s.open_).2.h_cost + 1 +
            (absDiff (scanMin s.open_).1.1 s.endPos.1 +
              absDiff (scanMin s.open_).1.2 s.endPos.2),
          absDiff (scanMin s.open_).1.1 s.endPos.1 +
            absDiff (scanMin s.open_).1.2 s.endPos.2,
          some (scanMin s.open_).1⟩ := by
  have hemp : s.path.isEmpty = true := by rw [hpath]; rfl
  have hstep : astarStep m s =
      some (⟨(List.foldl
          (astarVisit s.endPos (scanMin s.open_).1 (scanMin s.open_).2)
          (removeKey (scanMin s.open_).1 s.open_,
            insertA (scanMin s.open_).1 (scanMin s.open_).2 s.closed)
          (m.get_travellable_neighbors (scanMin s.open_).1)).1,
        (List.foldl
          (astarVisit s.endPos (scanMin s.open_).1 (scanMin s.open_).2)
          (removeKey (scanMin s.open_).1 s.open_,
            insertA (scanMin s.open_).1 (scanMin s.open_).2 s.closed)
          (m.get_travellable_neighbors (scanMin s.open_).1)).2,
        s.endPos, s.path⟩, none) := by
    simp only [astarStep]
    rw [if_pos hemp, if_neg hne]
  refine ⟨_, hstep, ?_, ?_⟩
  · exact astarVisit_closed _ _ _ _ _
  · refine astarVisit_fresh _ _ _ _ _ _ hw ?_ ?_
    · show alookup (insertA (scanMin s.open_).1 (scanMin s.open_).2 s.closed) w = none
      rw [alookup_insertA_other _ _ _ _ (gtn_ne_self m _ w hw)]
      exact hwcl
    · exact alookup_removeKey_none _ _ _ hwop

/-- C3 counterexample: on the all-open 2x2 grid, the first A* step
expands (0,0) whose stored cost field (f_cost) is 4, yet the fresh
neighbor (1,0) is inserted with cost field 3 = (h_cost 0) + 1 + 2, not
4 + 1; the heuristic 2 is the Manhattan distance from the expanded
cell, as claimed. -/
theorem claim_C3_counterexample :
    scanMin (astarInit (2, 2)).open_ = ((0, 0), ⟨4, 0, none⟩) ∧
    astarStep ⟨2, 2, [15, 15, 15, 15]⟩ (astarInit (2, 2)) =
      some (⟨[((0, 1), ⟨3, 2, some (0, 0)⟩), ((1, 0), ⟨3, 2, some (0, 0)⟩)],
        [((0, 0), ⟨4, 0, none⟩)], (1, 1), []⟩, none) ∧
    alookup [((0, 1), (⟨3, 2, some (0, 0)⟩ : CellInformation)),
      ((1, 0), ⟨3, 2, some (0, 0)⟩)] (1, 0) = some ⟨3, 2, some (0, 0)⟩ ∧
    (3 : Nat) ≠ 4 + 1 := by
  refine ⟨?_, ?_, ?_, ?_⟩ <;> decide

theorem astar_fresh_neighbor_assignment_witness :
    ((astarInit (2, 2)).path = [] ∧
      (scanMin (astarInit (2, 2)).open_).1 ≠ (astarInit (2, 2)).endPos ∧
      (1, 0) ∈ (Maze.mk 2 2 [15, 15, 15, 15]).get_travellable_neighbors
        (scanMin (astarInit (2, 2)).open_).1 ∧
      alookup (astarInit (2, 2)).closed (1, 0) = none ∧
      alookup (astarInit (2, 2)).open_ (1, 0) = none) ∧
    (∃ s2, astarStep ⟨2, 2, [15, 15, 15, 15]⟩ (astarInit (2, 2)) =
        some (s2, none) ∧
      s2.closed = insertA (scanMin (astarInit (2, 2)).open_).1
        (scanMin (astarInit (2, 2)).open_).2 (astarInit (2, 2)).closed ∧
      alookup s2.open_ (1, 0) =
        some ⟨(scanMin (astarInit (2, 2)).open_).2.h_cost + 1 +
            (absDiff (scanMin (astarInit (2, 2)).open_).1.1
                (astarInit (2, 2)).endPos.1 +
              absDiff (scanMin (astarInit (2, 2)).open_).1.2
                (astarInit (2, 2)).endPos.2),
          absDiff (scanMin (astarInit (2, 2)).open_).1.1
              (astarInit (2, 2)).endPos.1 +
            absDiff (scanMin (astarInit (2, 2)).open_).1.2
              (astarInit (2, 2)).endPos.2,
          some (scanMin (astarInit (2, 2)).open_).1⟩) :=
  ⟨⟨by decide, by decide, by decide, by decide, by decide⟩,
    astar_fresh_neighbor_assignment ⟨2, 2, [15, 15, 15, 15]⟩ (astarInit (2, 2))
      (1, 0) (by decide) (by decide) (by decide) (by decide) (by decide)⟩

/-- C7 counterexample: at the corner (0,0) of an empty 1x2 grid, after
the walk arrived by travelling UP (stored opposite DOWN), the only raw
neighbor lies DOWN, so two draws are made and both rejected — the
claimed two-draw bound with termination fails. -/
theorem claim_C7_counterexample :
    (Maze.new 1 2).get_neighbors (0, 0) = [((0, 1), Direction.DOWN)] ∧
    wilsonDraw ((Maze.new 1 2).get_neighbors (0, 0)) (some .DOWN) [0, 0] =
      none := by
  constructor <;> decide

theorem wilson_draw_only_down : ∀ (stream : List Nat),
    wilsonDraw [((0, 1), Direction.DOWN)] (some .DOWN) stream = none
  | [] => rfl
  | k :: rest => by
    simp only [wilsonDraw]
    rw [if_neg (by simp)]
    simp only [List.length_singleton, Nat.mod_one, List.getD_cons_zero]
    rw [if_pos trivial]
    exact wilson_draw_only_down rest

/-- C7 (amended): a rejected draw is redrawn indefinitely, not at most
once — the loop only stops on a draw whose direction differs from the
stored opposite.  At the corner of a width-1 grid whose only raw
neighbor lies in the rejected direction, every draw is rejected, so
the step consumes any finite draw stream without terminating; no
two-draw bound exists. -/
theorem wilson_draw_nonterminating (stream : List Nat) :
    wilsonDraw ((Maze.new 1 2).get_neighbors (0, 0)) (some .DOWN) stream =
      none := by
  have h : (Maze.new 1 2).get_neighbors (0, 0) = [((0, 1), Direction.DOWN)] := by
    decide
  rw [h]
  exact wilson_draw_only_down stream

theorem isOpenPath_singleton (m : Maze) (v : Pos) : IsOpenPath m v v [v] := by
  refine ⟨rfl, rfl, ?_⟩
  simp

theorem reachN_self (m : Maze) (v : Pos) : ReachN m v v 0 :=
  ⟨[v], isOpenPath_singleton m v, rfl⟩

theorem reach_self (m : Maze) (v : Pos) : Reach m v v :=
  ⟨[v], isOpenPath_singleton m v⟩

theorem isOpenPath_ne_nil {m : Maze} {a b : Pos} {l : List Pos}
    (h : IsOpenPath m a b l) : l ≠ [] := by
  intro hc
  rw [hc] at h
  simp [IsOpenPath] at h

theorem reachN_zero_eq {m : Maze} {a b : Pos} (h : ReachN m a b 0) : a = b := by
  obtain ⟨l, ⟨hh, hl, _⟩, hlen⟩ := h
  cases l with
  | nil => simp at hlen
  | cons x rest =>
    cases rest with
    | nil =>
      simp at hh hl
      rw [← hh, ← hl]
    | cons y rest2 => simp at hlen

theorem isOpenPath_snoc {m : Maze} {a b c : Pos} {l : List Pos}
    (h : IsOpenPath m a b l) (he : openAdj m b c) :
    IsOpenPath m a c (l ++ [c]) := by
  obtain ⟨hh, hl, hch⟩ := h
  refine ⟨?_, ?_, ?_⟩
  · rw [List.head?_append, hh]
    rfl
  · exact List.getLast?_concat l
  · rw [List.chain'_append]
    refine ⟨hch, List.chain'_singleton c, ?_⟩
    intro x hx y hy
    rw [hl] at hx
    simp at hx hy
    rw [← hx, ← hy]
    exact he

theorem reachN_succ {m : Maze} {a b c : Pos} {n : Nat}
    (h : ReachN m a b n) (he : openAdj m b c) : ReachN m a c (n + 1) := by
  obtain ⟨l, hp, hlen⟩ := h
  exact ⟨l ++ [c], isOpenPath_snoc hp he, by simp [hlen]⟩

theorem reachN_decompose {m : Maze} {a b : Pos} {n : Nat}
    (h : ReachN m a b (n + 1)) : ∃ u, ReachN m a u n ∧ openAdj m u b := by
  obtain ⟨l, ⟨hh, hl, hch⟩, hlen⟩ := h
  have hne : l ≠ [] := by intro hc; rw [hc] at hlen; simp at hlen
  have happ := List.dropLast_append_getLast hne
  have hlast : l.getLast hne = b := by
    have := List.getLast?_eq_getLast l hne
    rw [hl] at this
    exact (Option.some.injEq .. ▸ this).symm
  have hinit_len : l.dropLast.length = n + 1 := by
    rw [List.length_dropLast, hlen]
    rfl
  have hinit_ne : l.dropLast ≠ [] := by
    intro hc
    rw [hc] at hinit_len
    simp at hinit_len
  have hch2 := hch
  rw [← happ, List.chain'_append] at hch2
  obtain ⟨hch_init, _, hrel⟩ := hch2
  have hlast_init := List.getLast?_eq_getLast l.dropLast hinit_ne
  refine ⟨l.dropLast.getLast hinit_ne, ⟨l.dropLast, ⟨?_, hlast_init, hch_init⟩,
    hinit_len⟩, ?_⟩
  · have hh2 := hh
    rw [← happ, List.head?_append] at hh2
    rw [List.head?_eq_head hinit_ne] at hh2 ⊢
    simp only [Option.or_some] at hh2
    exact hh2
  · refine hrel _ hlast_init b ?_
    rw [hlast]
    rfl

theorem reach_iff_reachN {m : Maze} {a b : Pos} :
    Reach m a b ↔ ∃ n, ReachN m a b n := by
  constructor
  · rintro ⟨l, hp⟩
    have hne := isOpenPath_ne_nil hp
    refine ⟨l.length - 1, l, hp, ?_⟩
    have : 1 ≤ l.length := List.length_pos.mpr hne
    omega
  · rintro ⟨n, l, hp, _⟩
    exact ⟨l, hp⟩

theorem posDist_le {m : Maze} {v : Pos} {n : Nat}
    (h : ReachN m (0, 0) v n) : posDist m v ≤ n :=
  Nat.sInf_le h

theorem posDist_spec {m : Maze} {v : Pos} (h : Reach m (0, 0) v) :
    ReachN m (0, 0) v (posDist m v) := by
  have hne : {n | ReachN m (0, 0) v n}.Nonempty := reach_iff_reachN.mp h
  exact Nat.sInf_mem hne

theorem posDist_start (m : Maze) : posDist m (0, 0) = 0 :=
  Nat.le_zero.mp (posDist_le (reachN_self m (0, 0)))

theorem reach_extend {m : Maze} {u v : Pos} (h : Reach m (0, 0) u)
    (he : openAdj m u v) : Reach m (0, 0) v := by
  obtain ⟨l, hp⟩ := h
  exact ⟨l ++ [v], isOpenPath_snoc hp he⟩

theorem posDist_triangle {m : Maze} {u v : Pos} (h : Reach m (0, 0) u)
    (he : openAdj m u v) : posDist m v ≤ posDist m u + 1 :=
  posDist_le (reachN_succ (posDist_spec h) he)

/-- Walking a path out of a set `V` that contains the start: some edge
of the path crosses from `V` to its complement, and the crossing tail
is reached within fewer than `n` edges. -/
theorem exists_frontier {m : Maze} (V : Pos → Prop) :
    ∀ (n : Nat) (w : Pos), ReachN m (0, 0) w n → V (0, 0) → ¬ V w →
    ∃ x y j, V x ∧ ¬ V y ∧ openAdj m x y ∧ ReachN m (0, 0) x j ∧ j < n
  | 0, w, hr, hs, hw => absurd (reachN_zero_eq hr ▸ hs) hw
  | n + 1, w, hr, hs, hw => by
    obtain ⟨u, hru, he⟩ := reachN_decompose hr
    by_cases hu : V u
    · exact ⟨u, w, n, hu, hw, he, hru, by omega⟩
    · obtain ⟨x, y, j, h1, h2, h3, h4, h5⟩ := exists_frontier V n u hru hs hu
      exact ⟨x, y, j, h1, h2, h3, h4, by omega⟩

theorem alookup_append_left {β : Type} {l1 l2 : List (Pos × β)} {v : Pos}
    {x : β} (h : alookup l1 v = some x) : alookup (l1 ++ l2) v = some x := by
  induction l1 with
  | nil => simp [alookup] at h
  | cons e rest ih =>
    obtain ⟨k, b⟩ := e
    simp only [alookup] at h ⊢
    split at h
    · rename_i hk
      rw [if_pos hk]
      exact h
    · rename_i hk
      rw [if_neg hk]
      exact ih h

theorem alookup_append_right {β : Type} {l1 l2 : List (Pos × β)} {v : Pos}
    (h : alookup l1 v = none) : alookup (l1 ++ l2) v = alookup l2 v := by
  induction l1 with
  | nil => rfl
  | cons e rest ih =>
    obtain ⟨k, b⟩ := e
    simp only [alookup] at h ⊢
    split at h
    · simp at h
    · rename_i hk
      rw [if_neg hk]
      exact ih h

theorem alookup_map_const {fresh : List Pos} {po : Option Pos} {v : Pos} :
    alookup (fresh.map (fun q => (q, po))) v =
      if v ∈ fresh then some po else none := by
  induction fresh with
  | nil => simp [alookup]
  | cons q rest ih =>
    simp only [List.map_cons, alookup]
    by_cases hv : v = q
    · rw [if_pos hv]
      rw [if_pos (by simp [hv])]
    · rw [if_neg hv, ih]
      by_cases hm : v ∈ rest
      · rw [if_pos hm, if_pos (by simp [hm])]
      · rw [if_neg hm, if_neg (by simp [hv, hm])]

theorem alookup_none_iff {β : Type} {l : List (Pos × β)} {v : Pos} :
    alookup l v = none ↔ v ∉ l.map Prod.fst := by
  induction l with
  | nil => simp [alookup]
  | cons e rest ih =>
    obtain ⟨k, b⟩ := e
    simp only [alookup, List.map_cons, List.mem_cons]
    by_cases hv : v = k
    · rw [if_pos hv]
      simp [hv]
    · rw [if_neg hv]
      rw [ih]
      simp [hv]

theorem gtn_inB {m : Maze} {p : Pos} (hp : m.inB p) :
    ∀ q ∈ m.get_travellable_neighbors p, m.inB q := by
  intro q hq
  unfold Maze.get_travellable_neighbors at hq
  simp only [List.mem_append] at hq
  obtain ⟨px, py⟩ := p
  obtain ⟨hpx, hpy⟩ := hp
  rcases hq with ((h | h) | h) | h <;>
    (split at h
     · rename_i hc
       simp only [List.mem_singleton] at h
       subst h
       exact ⟨by omega, by omega⟩
     · simp at h)

theorem gtn_nodup (m : Maze) (p : Pos) :
    (m.get_travellable_neighbors p).Nodup := by
  obtain ⟨px, py⟩ := p
  simp only [Maze.get_travellable_neighbors]
  split_ifs <;>
    simp_all [List.Nodup, List.pairwise_append, Prod.mk.injEq] <;>
    omega

/-- The predecessor chains stored in `visited` reconstruct a shortest
path: following them from `v` takes exactly `posDist v` hops and the
reversed result is an open path from the start. -/
theorem chase_visited (m : Maze) (visited : List (Pos × Option Pos))
    (hvis : ∀ v po, alookup visited v = some po →
      Reach m (0, 0) v ∧ (po = none → v = (0, 0)) ∧
      (∀ u, po = some u → openAdj m u v ∧
        (∃ po2, alookup visited u = some po2) ∧
        posDist m v = posDist m u + 1)) :
    ∀ (k : Nat) (v : Pos) (po : Option Pos), alookup visited v = some po →
      posDist m v = k → ∀ fuel, k + 1 ≤ fuel →
      ∃ l, chase id visited v fuel = some l ∧
        IsOpenPath m (0, 0) v l.reverse ∧ l.length = k + 1 := by
  intro k
  induction k with
  | zero =>
    intro v po hlo hd fuel hfuel
    cases fuel with
    | zero => omega
    | succ f =>
      obtain ⟨hr, hnone, hsome⟩ := hvis v po hlo
      cases po with
      | none =>
        have hv0 : v = (0, 0) := hnone rfl
        refine ⟨[v], ?_, ?_, rfl⟩
        · simp only [chase, hlo, id_eq]
        · rw [hv0]
          exact ⟨rfl, rfl, by simp⟩
      | some u =>
        obtain ⟨_, _, hdd⟩ := hsome u rfl
        omega
  | succ k ih =>
    intro v po hlo hd fuel hfuel
    cases fuel with
    | zero => omega
    | succ f =>
      obtain ⟨hr, hnone, hsome⟩ := hvis v po hlo
      cases po with
      | none =>
        have hv0 : v = (0, 0) := hnone rfl
        rw [hv0, posDist_start] at hd
        omega
      | some u =>
        obtain ⟨he, ⟨po2, hlu⟩, hdd⟩ := hsome u rfl
        have hdu : posDist m u = k := by omega
        obtain ⟨l2, hch2, hp2, hlen2⟩ := ih u po2 hlu hdu f (by omega)
        refine ⟨v :: l2, ?_, ?_, ?_⟩
        · simp only [chase, hlo, id_eq, hch2, Option.map_some']
        · rw [List.reverse_cons]
          exact isOpenPath_snoc hp2 he
        · simp [hlen2]

/-- When the queue is empty the visited set is closed under open
edges, so everything reachable from the start is visited. -/
theorem visited_closed_of_empty_queue {m : Maze} {s : BFSSolver}
    (inv : BFSInv m s) (hq : s.queue = []) :
    ∀ (n : Nat) (v : Pos), ReachN m (0, 0) v n →
      ∃ po, alookup s.visited v = some po
  | 0, v, hr => by
    rw [← reachN_zero_eq hr]
    exact ⟨none, inv.hstart⟩
  | n + 1, v, hr => by
    obtain ⟨u, hru, he⟩ := reachN_decompose hr
    have hu := visited_closed_of_empty_queue inv hq n u hru
    exact inv.hclosure u hu (by rw [hq]; simp) v he

/-- One non-final BFS step keeps the invariant. -/
theorem bfs_step_maintains {m : Maze} {s : BFSSolver} (inv : BFSInv m s)
    {pos : Pos} {rest : List Pos} (hq : s.queue = pos :: rest)
    (hne : pos ≠ s.endPos) :
    bfsStep m s = some
      (⟨rest ++ (m.get_travellable_neighbors pos).filter
          (fun q => (alookup s.visited q).isNone),
        s.visited ++ ((m.get_travellable_neighbors pos).filter
          (fun q => (alookup s.visited q).isNone)).map (fun q => (q, some pos)),
        s.path, s.finished, s.endPos⟩, none) ∧
    BFSInv m
      ⟨rest ++ (m.get_travellable_neighbors pos).filter
          (fun q => (alookup s.visited q).isNone),
        s.visited ++ ((m.get_travellable_neighbors pos).filter
          (fun q => (alookup s.visited q).isNone)).map (fun q => (q, some pos)),
        s.path, s.finished, s.endPos⟩ := by
  obtain ⟨ppo, hpos⟩ := inv.hqvis pos (by rw [hq]; simp)
  have hposin : m.inB pos := inv.hvin pos ppo hpos
  have hposreach : Reach m (0, 0) pos := (inv.hvis pos ppo hpos).1
  have hF1 : ∀ w ∈ (m.get_travellable_neighbors pos).filter
      (fun q => (alookup s.visited q).isNone),
      alookup s.visited w = none ∧ openAdj m pos w := by
    intro w hw
    rw [List.mem_filter] at hw
    exact ⟨Option.isNone_iff_eq_none.mp hw.2, hw.1⟩
  have hF4 : ∀ w ∈ (m.get_travellable_neighbors pos).filter
      (fun q => (alookup s.visited q).isNone),
      posDist m w = posDist m pos + 1 := by
    intro w hw
    obtain ⟨hwnone, hwe⟩ := hF1 w hw
    have hle : posDist m w ≤ posDist m pos + 1 := posDist_triangle hposreach hwe
    have hwreach : Reach m (0, 0) w := reach_extend hposreach hwe
    obtain ⟨x, y, j, hVx, hVy, hxy, hrx, hj⟩ :=
      exists_frontier (fun v => ∃ po, alookup s.visited v = some po)
        (posDist m w) w (posDist_spec hwreach) ⟨none, inv.hstart⟩
        (by rintro ⟨po, hpo⟩; rw [hwnone] at hpo; exact absurd hpo (by simp))
    have hxq : x ∈ s.queue := by
      by_contra hxq
      exact absurd (inv.hclosure x hVx hxq y hxy) (by
        rintro ⟨po, hpo⟩
        exact hVy ⟨po, hpo⟩)
    have hdx : posDist m x ≤ j := posDist_le hrx
    have hdpx : posDist m pos ≤ posDist m x := by
      rw [hq] at hxq
      rcases List.mem_cons.mp hxq with hx | hx
      · rw [hx]
      · have := inv.hqsort
        rw [hq, List.pairwise_cons] at this
        exact this.1 x hx
    omega
  have hFnodup : ((m.get_travellable_neighbors pos).filter
      (fun q => (alookup s.visited q).isNone)).Nodup :=
    (gtn_nodup m pos).filter _
  have hG1 : ∀ (v : Pos) (po : Option Pos), alookup s.visited v = some po →
      alookup (s.visited ++ ((m.get_travellable_neighbors pos).filter
        (fun q => (alookup s.visited q).isNone)).map (fun q => (q, some pos))) v =
        some po := fun v po h => alookup_append_left h
  have hG2 : ∀ w ∈ (m.get_travellable_neighbors pos).filter
      (fun q => (alookup s.visited q).isNone),
      alookup (s.visited ++ ((m.get_travellable_neighbors pos).filter
        (fun q => (alookup s.visited q).isNone)).map (fun q => (q, some pos))) w =
        some (some pos) := by
    intro w hw
    rw [alookup_append_right (hF1 w hw).1, alookup_map_const, if_pos hw]
  have hG3 : ∀ (v : Pos) (po : Option Pos),
      alookup (s.visited ++ ((m.get_travellable_neighbors pos).filter
        (fun q => (alookup s.visited q).isNone)).map (fun q => (q, some pos))) v =
        some po →
      alookup s.visited v = some po ∨
        (v ∈ (m.get_travellable_neighbors pos).filter
          (fun q => (alookup s.visited q).isNone) ∧ po = some pos) := by
    intro v po hv
    cases hold : alookup s.visited v with
    | some x =>
      left
      rw [alookup_append_left hold] at hv
      exact hv
    | none =>
      right
      rw [alookup_append_right hold, alookup_map_const] at hv
      split at hv
      · rename_i hmem
        simp only [Option.some.injEq] at hv
        exact ⟨hmem, hv.symm⟩
      · simp at hv
  constructor
  · simp only [bfsStep, inv.hfin, Bool.false_eq_true, if_false, hq, if_neg hne]
  · refine
      { hfin := inv.hfin
        hstart := hG1 _ _ inv.hstart
        hkeys := ?_
        hvis := ?_
        hqvis := ?_
        hqsort := ?_
        hq2 := ?_
        hclosure := ?_
        hqnodup := ?_
        hendq := ?_
        hvin := ?_
        hdix := ?_ }
    · show ((s.visited ++ _).map Prod.fst).Nodup
      rw [List.map_append]
      rw [List.nodup_append]
      refine ⟨inv.hkeys, ?_, ?_⟩
      · rw [List.map_map]
        have : (Prod.fst ∘ fun q : Pos => (q, some pos)) = id := rfl
        rw [this, List.map_id]
        exact hFnodup
      · intro a ha hb
        rw [List.map_map] at hb
        have : (Prod.fst ∘ fun q : Pos => (q, some pos)) = id := rfl
        rw [this, List.map_id] at hb
        exact absurd ha (alookup_none_iff.mp (hF1 a hb).1)
    · intro v po hlo
      rcases hG3 v po hlo with hold | ⟨hmem, hpo⟩
      · obtain ⟨hr, hz, hf⟩ := inv.hvis v po hold
        refine ⟨hr, hz, fun u hu => ?_⟩
        obtain ⟨he, ⟨po2, hlu⟩, hdd⟩ := hf u hu
        exact ⟨he, ⟨po2, hG1 u po2 hlu⟩, hdd⟩
      · subst hpo
        refine ⟨reach_extend hposreach (hF1 v hmem).2, by simp, fun u hu => ?_⟩
        have hup : u = pos := by
          simp only [Option.some.injEq] at hu
          exact hu.symm
        subst hup
        exact ⟨(hF1 v hmem).2, ⟨ppo, hG1 _ _ hpos⟩, hF4 v hmem⟩
    · intro v hv
      rcases List.mem_append.mp hv with hv | hv
      · obtain ⟨po, hpo⟩ := inv.hqvis v (by rw [hq]; simp [hv])
        exact ⟨po, hG1 v po hpo⟩
      · exact ⟨some pos, hG2 v hv⟩
    · rw [List.pairwise_append]
      refine ⟨?_, ?_, ?_⟩
      · have := inv.hqsort
        rw [hq, List.pairwise_cons] at this
        exact this.2
      · refine List.pairwise_of_forall_mem_list ?_
        intro a ha b hb
        rw [hF4 a ha, hF4 b hb]
      · intro a ha b hb
        rw [hF4 b hb]
        have : posDist m a ≤ posDist m pos + 1 :=
          inv.hq2 pos (by rw [hq]; simp) a (by rw [hq]; simp [ha])
        omega
    · intro a ha b hb
      rcases List.mem_append.mp ha with ha2 | ha2 <;>
        rcases List.mem_append.mp hb with hb2 | hb2
      · exact inv.hq2 a (by rw [hq]; simp [ha2]) b (by rw [hq]; simp [hb2])
      · rw [hF4 b hb2]
        have := inv.hqsort
        rw [hq, List.pairwise_cons] at this
        have := this.1 a ha2
        omega
      · rw [hF4 a ha2]
        have : posDist m b ≤ posDist m pos + 1 :=
          inv.hq2 pos (by rw [hq]; simp) b (by rw [hq]; simp [hb2])
        omega
      · rw [hF4 a ha2, hF4 b hb2]
        omega
    · intro v hvv hnq w hw
      rcases hvv with ⟨po, hlo⟩
      rcases hG3 v po hlo with hold | ⟨hmem, _⟩
      · by_cases hvpos : v = pos
        · subst hvpos
          cases hwold : alookup s.visited w with
          | some x => exact ⟨x, hG1 w x hwold⟩
          | none =>
            have hwf : w ∈ (m.get_travellable_neighbors v).filter
                (fun q => (alookup s.visited q).isNone) :=
              List.mem_filter.mpr ⟨hw, by rw [hwold]; rfl⟩
            exact ⟨some v, hG2 w hwf⟩
        · have hnq2 : v ∉ s.queue := by
            rw [hq]
            intro hc
            rcases List.mem_cons.mp hc with hc | hc
            · exact hvpos hc
            · exact hnq (List.mem_append.mpr (Or.inl hc))
          obtain ⟨po2, hpo2⟩ := inv.hclosure v ⟨po, hold⟩ hnq2 w hw
          exact ⟨po2, hG1 w po2 hpo2⟩
      · exact absurd (List.mem_append.mpr (Or.inr hmem)) hnq
    · rw [List.nodup_append]
      refine ⟨?_, hFnodup, ?_⟩
      · have := inv.hqnodup
        rw [hq] at this
        exact this.of_cons
      · intro a ha hb
        obtain ⟨po, hpo⟩ := inv.hqvis a (by rw [hq]; simp [ha])
        rw [(hF1 a hb).1] at hpo
        exact absurd hpo (by simp)
    · intro po hlo
      rcases hG3 _ po hlo with hold | ⟨hmem, _⟩
      · have := inv.hendq po hold
        rw [hq] at this
        rcases List.mem_cons.mp this with hc | hc
        · exact absurd hc.symm hne
        · exact List.mem_append.mpr (Or.inl hc)
      · exact List.mem_append.mpr (Or.inr hmem)
    · intro v po hlo
      rcases hG3 v po hlo with hold | ⟨hmem, _⟩
      · exact inv.hvin v po hold
      · exact gtn_inB hposin v (List.mem_filter.mp hmem).1
    · intro v po hlo
      have hlen : (s.visited ++ ((m.get_travellable_neighbors pos).filter
          (fun q => (alookup s.visited q).isNone)).map
            (fun q => (q, some pos))).length =
          s.visited.length + ((m.get_travellable_neighbors pos).filter
            (fun q => (alookup s.visited q).isNone)).length := by
        simp
      rcases hG3 v po hlo with hold | ⟨hmem, _⟩
      · have := inv.hdix v po hold
        rw [hlen]
        omega
      · have h1 := hF4 v hmem
        have h2 := inv.hdix pos ppo hpos
        have h3 : 1 ≤ ((m.get_travellable_neighbors pos).filter
            (fun q => (alookup s.visited q).isNone)).length :=
          List.length_pos.mpr (by
            intro hc
            rw [hc] at hmem
            simp at hmem)
        rw [hlen, h1]
        omega

theorem visited_card_le {m : Maze} {s : BFSSolver} (inv : BFSInv m s) :
    s.visited.length ≤ m.width * m.height := by
  have hsub : (s.visited.map Prod.fst).toFinset ⊆
      Finset.range m.width ×ˢ Finset.range m.height := by
    intro k hk
    rw [List.mem_toFinset] at hk
    have hne : alookup s.visited k ≠ none := fun hc => (alookup_none_iff.mp hc) hk
    cases hlo : alookup s.visited k with
    | none => exact absurd hlo hne
    | some po =>
      have hin := inv.hvin k po hlo
      rw [Finset.mem_product, Finset.mem_range, Finset.mem_range]
      exact ⟨hin.1, hin.2⟩
  have hcard := Finset.card_le_card hsub
  rw [List.toFinset_card_of_nodup inv.hkeys] at hcard
  simpa using hcard

theorem queue_len_le {m : Maze} {s : BFSSolver} (inv : BFSInv m s) :
    s.queue.length ≤ s.visited.length := by
  have hsub : s.queue.toFinset ⊆ (s.visited.map Prod.fst).toFinset := by
    intro k hk
    rw [List.mem_toFinset] at hk
    rw [List.mem_toFinset]
    obtain ⟨po, hpo⟩ := inv.hqvis k hk
    by_contra hc
    rw [alookup_none_iff.mpr hc] at hpo
    exact absurd hpo (by simp)
  have hcard := Finset.card_le_card hsub
  rw [List.toFinset_card_of_nodup inv.hqnodup,
    List.toFinset_card_of_nodup inv.hkeys] at hcard
  simpa using hcard

theorem bfs_queue_ne_nil {m : Maze} {s : BFSSolver} (inv : BFSInv m s)
    (hr : Reach m (0, 0) s.endPos) : s.queue ≠ [] := by
  intro hq
  obtain ⟨n, hrn⟩ := reach_iff_reachN.mp hr
  obtain ⟨po, hpo⟩ := visited_closed_of_empty_queue inv hq n _ hrn
  have := inv.hendq po hpo
  rw [hq] at this
  simp at this

/-- From any invariant state whose goal is reachable, the BFS run
finishes with a path of exactly `posDist endPos` edges. -/
theorem bfs_progress (m : Maze) :
    ∀ (fuel : Nat) (s : BFSSolver), BFSInv m s → Reach m (0, 0) s.endPos →
      (m.width * m.height + 1 - s.visited.length) * (m.width * m.height + 2) +
        s.queue.length ≤ fuel →
      ∃ n s2 p, bfsRun m s n = some (s2, some p) ∧
        IsOpenPath m (0, 0) s.endPos p ∧ p.length = posDist m s.endPos + 1 := by
  intro fuel
  induction fuel with
  | zero =>
    intro s inv hr hfuel
    exfalso
    refine bfs_queue_ne_nil inv hr (List.length_eq_zero.mp ?_)
    omega
  | succ f ih =>
    intro s inv hr hfuel
    cases hq : s.queue with
    | nil => exact absurd hq (bfs_queue_ne_nil inv hr)
    | cons pos rest =>
      by_cases hpe : pos = s.endPos
      · obtain ⟨po, hlo⟩ := inv.hqvis pos (by rw [hq]; simp)
        have hk := inv.hdix pos po hlo
        obtain ⟨l, hch, hp, hlen⟩ := chase_visited m s.visited inv.hvis
          (posDist m pos) pos po hlo rfl (s.visited.length + 1) (by omega)
        have hstep : bfsStep m s =
            some (⟨rest, s.visited, l.reverse, true, s.endPos⟩, some l.reverse) := by
          simp only [bfsStep, inv.hfin, Bool.false_eq_true, if_false, hq,
            if_pos hpe, hch]
        refine ⟨1, ⟨rest, s.visited, l.reverse, true, s.endPos⟩, l.reverse,
          ?_, ?_, ?_⟩
        · show (match bfsStep m s with
            | none => none
            | some (s2, some p) => some (s2, some p)
            | some (s2, none) => bfsRun m s2 0) =
            some ((⟨rest, s.visited, l.reverse, true, s.endPos⟩ : BFSSolver),
              some l.reverse)
          rw [hstep]
        · rw [← hpe]
          exact hp
        · rw [← hpe]
          simp [hlen]
      · obtain ⟨hstep, hinv2⟩ := bfs_step_maintains inv hq hpe
        have hbig := visited_card_le hinv2
        have hqlen := queue_len_le hinv2
        simp only [List.length_append, List.length_map] at hbig hqlen
        by_cases hF : (m.get_travellable_neighbors pos).filter
            (fun q => (alookup s.visited q).isNone) = []
        · have hmeas : (m.width * m.height + 1 -
              ((s.visited ++ ((m.get_travellable_neighbors pos).filter
                (fun q => (alookup s.visited q).isNone)).map
                  (fun q => (q, some pos))) : List (Pos × Option Pos)).length) *
              (m.width * m.height + 2) +
              ((rest ++ (m.get_travellable_neighbors pos).filter
                (fun q => (alookup s.visited q).isNone)) : List Pos).length ≤ f := by
            rw [hF]
            simp only [List.map_nil, List.append_nil, List.length_append,
              List.length_nil]
            rw [hq] at hfuel
            simp only [List.length_cons] at hfuel
            omega
          obtain ⟨n, s3, p, hrun, hip, hplen⟩ := ih _ hinv2 hr hmeas
          refine ⟨n + 1, s3, p, ?_, hip, hplen⟩
          show (match bfsStep m s with
            | none => none
            | some (s2, some p) => some (s2, some p)
            | some (s2, none) => bfsRun m s2 n) = some (s3, some p)
          rw [hstep]
          exact hrun
        · have hFpos : 1 ≤ ((m.get_travellable_neighbors pos).filter
              (fun q => (alookup s.visited q).isNone)).length :=
            List.length_pos.mpr hF
          have hmono := Nat.mul_le_mul_right (m.width * m.height + 2)
            (show m.width * m.height + 1 - (s.visited.length +
                ((m.get_travellable_neighbors pos).filter
                  (fun q => (alookup s.visited q).isNone)).length) + 1 ≤
              m.width * m.height + 1 - s.visited.length by omega)
          have hsucc : (m.width * m.height + 1 -
              (s.visited.length + ((m.get_travellable_neighbors pos).filter
                (fun q => (alookup s.visited q).isNone)).length) + 1) *
              (m.width * m.height + 2) =
              (m.width * m.height + 1 -
                (s.visited.length + ((m.get_travellable_neighbors pos).filter
                  (fun q => (alookup s.visited q).isNone)).length)) *
              (m.width * m.height + 2) + (m.width * m.height + 2) := by
            ring
          have hmeas : (m.width * m.height + 1 -
              ((s.visited ++ ((m.get_travellable_neighbors pos).filter
                (fun q => (alookup s.visited q).isNone)).map
                  (fun q => (q, some pos))) : List (Pos × Option Pos)).length) *
              (m.width * m.height + 2) +
              ((rest ++ (m.get_travellable_neighbors pos).filter
                (fun q => (alookup s.visited q).isNone)) : List Pos).length ≤ f := by
            simp only [List.length_append, List.length_map]
            rw [hq] at hfuel
            simp only [List.length_cons] at hfuel
            omega
          obtain ⟨n, s3, p, hrun, hip, hplen⟩ := ih _ hinv2 hr hmeas
          refine ⟨n + 1, s3, p, ?_, hip, hplen⟩
          show (match bfsStep m s with
            | none => none
            | some (s2, some p) => some (s2, some p)
            | some (s2, none) => bfsRun m s2 n) = some (s3, some p)
          rw [hstep]
          exact hrun

theorem bfsInit_inv (m : Maze) (hw : 1 ≤ m.width) (hh : 1 ≤ m.height) :
    BFSInv m (bfsInit m.get_bounds) := by
  have hstart0 : alookup (bfsInit m.get_bounds).visited (0, 0) = some none := by
    simp [bfsInit, alookup]
  refine
    { hfin := rfl
      hstart := hstart0
      hkeys := by simp [bfsInit]
      hvis := ?_
      hqvis := ?_
      hqsort := by simp [bfsInit]
      hq2 := ?_
      hclosure := ?_
      hqnodup := by simp [bfsInit]
      hendq := ?_
      hvin := ?_
      hdix := ?_ }
  · intro v po hlo
    simp only [bfsInit, alookup] at hlo
    split at hlo
    · rename_i hv
      simp only [Option.some.injEq] at hlo
      subst hv
      refine ⟨reach_self m (0, 0), fun _ => rfl, fun u hu => ?_⟩
      rw [← hlo] at hu
      simp at hu
    · simp at hlo
  · intro v hv
    simp only [bfsInit, List.mem_singleton] at hv
    subst hv
    exact ⟨none, hstart0⟩
  · intro a ha b hb
    simp only [bfsInit, List.mem_singleton] at ha hb
    subst ha
    subst hb
    omega
  · intro v hvv hnq w hw
    obtain ⟨po, hlo⟩ := hvv
    simp only [bfsInit, alookup] at hlo
    split at hlo
    · rename_i hv
      exact absurd (by simp [bfsInit, hv] : v ∈ (bfsInit m.get_bounds).queue) hnq
    · simp at hlo
  · intro po hlo
    simp only [bfsInit, alookup] at hlo
    split at hlo
    · rename_i hv
      simp [bfsInit, hv]
    · simp at hlo
  · intro v po hlo
    simp only [bfsInit, alookup] at hlo
    split at hlo
    · rename_i hv
      rw [hv]
      exact ⟨by omega, by omega⟩
    · simp at hlo
  · intro v po hlo
    simp only [bfsInit, alookup] at hlo
    split at hlo
    · rename_i hv
      rw [hv, posDist_start]
      simp [bfsInit]
    · simp at hlo

/-- C5: driving the BFS solver to completion on a grid whose goal cell
is reachable from (0,0) through open passages yields an open path from
(0,0) to (width-1, height-1) whose length is minimal among all such
paths. -/
theorem bfs_shortest_path (m : Maze) (hw : 1 ≤ m.width) (hh : 1 ≤ m.height)
    (hreach : Reach m (0, 0) (m.width - 1, m.height - 1)) :
    ∃ n s p, bfsRun m (bfsInit m.get_bounds) n = some (s, some p) ∧
      IsOpenPath m (0, 0) (m.width - 1, m.height - 1) p ∧
      ∀ q, IsOpenPath m (0, 0) (m.width - 1, m.height - 1) q →
        p.length ≤ q.length := by
  have hinv := bfsInit_inv m hw hh
  have hend : (bfsInit m.get_bounds).endPos = (m.width - 1, m.height - 1) := rfl
  obtain ⟨n, s2, p, hrun, hip, hlen⟩ := bfs_progress m
    ((m.width * m.height + 1 - 1) * (m.width * m.height + 2) + 1)
    (bfsInit m.get_bounds) hinv (by rw [hend]; exact hreach)
    (by simp [bfsInit, Maze.get_bounds])
  rw [hend] at hip hlen
  refine ⟨n, s2, p, hrun, hip, ?_⟩
  intro q hq
  have hqne := isOpenPath_ne_nil hq
  have hq1 : 1 ≤ q.length := List.length_pos.mpr hqne
  have hrq : ReachN m (0, 0) (m.width - 1, m.height - 1) (q.length - 1) :=
    ⟨q, hq, by omega⟩
  have := posDist_le hrq
  omega

theorem bfs_shortest_path_witness :
    (1 ≤ (Maze.mk 2 2 [15, 15, 15, 15]).width ∧
      1 ≤ (Maze.mk 2 2 [15, 15, 15, 15]).height ∧
      Reach ⟨2, 2, [15, 15, 15, 15]⟩ (0, 0)
        ((Maze.mk 2 2 [15, 15, 15, 15]).width - 1,
          (Maze.mk 2 2 [15, 15, 15, 15]).height - 1)) ∧
    (∃ n s p, bfsRun ⟨2, 2, [15, 15, 15, 15]⟩
        (bfsInit (Maze.mk 2 2 [15, 15, 15, 15]).get_bounds) n =
          some (s, some p) ∧
      IsOpenPath ⟨2, 2, [15, 15, 15, 15]⟩ (0, 0)
        ((Maze.mk 2 2 [15, 15, 15, 15]).width - 1,
          (Maze.mk 2 2 [15, 15, 15, 15]).height - 1) p ∧
      ∀ q, IsOpenPath ⟨2, 2, [15, 15, 15, 15]⟩ (0, 0)
          ((Maze.mk 2 2 [15, 15, 15, 15]).width - 1,
            (Maze.mk 2 2 [15, 15, 15, 15]).height - 1) q →
        p.length ≤ q.length) :=
  ⟨⟨by decide, by decide, ⟨[(0, 0), (1, 0), (1, 1)], by
      refine ⟨rfl, rfl, ?_⟩
      rw [List.chain'_cons, List.chain'_cons]
      exact ⟨by decide, by decide, List.chain'_singleton _⟩⟩⟩,
    bfs_shortest_path ⟨2, 2, [15, 15, 15, 15]⟩ (by decide) (by decide)
      ⟨[(0, 0), (1, 0), (1, 1)], by
        refine ⟨rfl, rfl, ?_⟩
        rw [List.chain'_cons, List.chain'_cons]
        exact ⟨by decide, by decide, List.chain'_singleton _⟩⟩⟩

theorem adjacent_symm {a b : Pos} (h : adjacent a b) : adjacent b a := by
  unfold adjacent at h ⊢; omega

theorem adjacent_ne {a b : Pos} (h : adjacent a b) : a ≠ b := by
  intro heq; subst heq; unfold adjacent at h; omega

theorem directionBetween_travel {a b : Pos} (h : adjacent a b) :
    (directionBetween a b).travel a = b := by
  obtain ⟨a1, a2⟩ := a
  obtain ⟨b1, b2⟩ := b
  simp only [adjacent] at h
  simp only [directionBetween]
  split_ifs <;> simp only [Direction.travel, Prod.mk.injEq] <;> omega

theorem adjacent_travelOk {m : Maze} {a b : Pos} (ha : m.inB a) (hb : m.inB b)
    (h : adjacent a b) : m.travelOk a.1 a.2 (directionBetween a b) := by
  obtain ⟨a1, a2⟩ := a
  obtain ⟨b1, b2⟩ := b
  simp only [adjacent] at h
  simp only [Maze.inB] at ha hb
  simp only [directionBetween]
  split_ifs <;> simp only [Maze.travelOk] <;> omega

theorem directionBetween_opposite {a b : Pos} (h : adjacent a b) :
    directionBetween b a = (directionBetween a b).opposite := by
  obtain ⟨a1, a2⟩ := a
  obtain ⟨b1, b2⟩ := b
  simp only [adjacent] at h
  simp only [directionBetween]
  split_ifs <;> simp only [Direction.opposite] <;> first | rfl | omega

theorem directionBetween_inj {a b c : Pos} (hab : adjacent a b)
    (hac : adjacent a c) (h : directionBetween a b = directionBetween a c) :
    b = c := by
  have h1 := directionBetween_travel hab
  have h2 := directionBetween_travel hac
  rw [h] at h1
  exact h1.symm.trans h2

theorem hasBit_ne_zero {v : Nat} {d : Direction} (h : hasBit v d) : v ≠ 0 :=
  fun hv => hasBit_zero d (hv ▸ h)

theorem edge_carved {m : Maze} {p q : Pos} (h : edgeOpen m p q) :
    carved m p ∧ carved m q :=
  ⟨⟨h.1, hasBit_ne_zero h.2.2.2.1⟩, ⟨h.2.1, hasBit_ne_zero h.2.2.2.2⟩⟩

theorem edgeOpen_symm {m : Maze} {p q : Pos} (h : edgeOpen m p q) :
    edgeOpen m q p :=
  ⟨h.2.1, h.1, adjacent_symm h.2.2.1, h.2.2.2.2, h.2.2.2.1⟩

theorem reachE_symm {m : Maze} {p q : Pos} (h : ReachE m p q) : ReachE m q p :=
  Relation.ReflTransGen.symmetric (fun _ _ hxy => edgeOpen_symm hxy) h

theorem cert_reach_root {m : Maze} (C : TreeCert m) :
    ∀ n p, C.depth p ≤ n → carved m p → ReachE m p C.root := by
  intro n
  induction n with
  | zero =>
    intro p hd hc
    by_cases hp : p = C.root
    · subst hp; exact Relation.ReflTransGen.refl
    · obtain ⟨q, hq⟩ := Option.isSome_iff_exists.mp (C.hsome p hc hp)
      have hdep := (C.hedge p q hq).2
      omega
  | succ n ih =>
    intro p hd hc
    by_cases hp : p = C.root
    · subst hp; exact Relation.ReflTransGen.refl
    · obtain ⟨q, hq⟩ := Option.isSome_iff_exists.mp (C.hsome p hc hp)
      obtain ⟨he, hdep⟩ := C.hedge p q hq
      exact Relation.ReflTransGen.head he (ih q (by omega) (edge_carved he).2)

theorem cert_connected {m : Maze} (C : TreeCert m) :
    ∀ p q, carved m p → carved m q → ReachE m p q := by
  intro p q hp hq
  have h1 := cert_reach_root C (C.depth p) p le_rfl hp
  have h2 := cert_reach_root C (C.depth q) q le_rfl hq
  exact Relation.ReflTransGen.trans h1 (reachE_symm h2)

theorem cycIdx_prev {k i : Nat} (hi : i < k) :
    ((i + (k - 1)) % k + 1) % k = i := by
  rcases Nat.eq_zero_or_pos i with h0 | hpos
  · subst h0
    rw [Nat.zero_add, Nat.mod_eq_of_lt (show k - 1 < k by omega),
      show k - 1 + 1 = k by omega, Nat.mod_self]
  · rw [show i + (k - 1) = (i - 1) + k by omega, Nat.add_mod_right,
      Nat.mod_eq_of_lt (show i - 1 < k by omega),
      show i - 1 + 1 = i by omega, Nat.mod_eq_of_lt hi]

theorem cycIdx_ne {k i : Nat} (hk : 3 ≤ k) (hi : i < k) :
    (i + 1) % k ≠ (i + (k - 1)) % k := by
  intro h
  rcases Nat.eq_zero_or_pos i with h0 | hpos
  · subst h0
    rw [Nat.mod_eq_of_lt (by omega), Nat.mod_eq_of_lt (by omega)] at h
    omega
  · rw [show i + (k - 1) = (i - 1) + k by omega, Nat.add_mod_right] at h
    rcases Nat.lt_or_ge (i + 1) k with hc | hc
    · rw [Nat.mod_eq_of_lt hc, Nat.mod_eq_of_lt (by omega)] at h
      omega
    · have hik : i + 1 = k := by omega
      rw [hik, Nat.mod_self, Nat.mod_eq_of_lt (by omega)] at h
      omega

theorem cert_no_cycle {m : Maze} (C : TreeCert m) (verts : List Pos) :
    ¬ IsCycle m verts := by
  rintro ⟨hlen, hnd, hedges⟩
  have h0k : 0 < verts.length := by omega
  have hed : ∀ i, i < verts.length →
      edgeOpen m (verts.getD i (0, 0))
        (verts.getD ((i + 1) % verts.length) (0, 0)) := by
    intro i hi
    have h := hedges i hi
    rw [List.getD_eq_getElem _ _ hi,
      List.getD_eq_getElem _ _ (Nat.mod_lt _ h0k)]
    simpa [List.get_eq_getElem] using h
  have hinj : ∀ i j, i < verts.length → j < verts.length →
      verts.getD i (0, 0) = verts.getD j (0, 0) → i = j := by
    intro i j hi hj hij
    rw [List.getD_eq_getElem _ _ hi, List.getD_eq_getElem _ _ hj] at hij
    have h2 : (⟨i, hi⟩ : Fin verts.length) = ⟨j, hj⟩ :=
      List.nodup_iff_injective_get.mp hnd
        (by rw [List.get_eq_getElem, List.get_eq_getElem]; exact hij)
    simpa using congrArg Fin.val h2
  -- index of maximal depth
  cases hma : verts.argmax C.depth with
  | none =>
    rw [List.argmax_eq_none] at hma
    rw [hma] at hlen
    simp at hlen
  | some v =>
    have hvmem : v ∈ verts := List.argmax_mem hma
    have hmax : ∀ w ∈ verts, C.depth w ≤ C.depth v :=
      fun w hw => List.le_of_mem_argmax hw hma
    obtain ⟨⟨i, hi⟩, hgi⟩ := List.mem_iff_get.mp hvmem
    have hgi' : verts.getD i (0, 0) = v := by
      rw [List.getD_eq_getElem _ _ hi]
      rw [List.get_eq_getElem] at hgi
      exact hgi
    have hprev_lt : (i + (verts.length - 1)) % verts.length < verts.length :=
      Nat.mod_lt _ h0k
    have e1 := hed i hi
    have e2 := hed _ hprev_lt
    rw [cycIdx_prev hi] at e2
    have hmem_next : verts.getD ((i + 1) % verts.length) (0, 0) ∈ verts := by
      rw [List.getD_eq_getElem _ _ (Nat.mod_lt _ h0k)]
      exact List.getElem_mem _
    have hmem_prev :
        verts.getD ((i + (verts.length - 1)) % verts.length) (0, 0) ∈ verts := by
      rw [List.getD_eq_getElem _ _ hprev_lt]
      exact List.getElem_mem _
    -- the cell of maximal depth is a child along both incident edges
    have hpar1 : C.parent (verts.getD i (0, 0)) =
        some (verts.getD ((i + 1) % verts.length) (0, 0)) := by
      rcases C.hcov _ _ e1 with h | h
      · exact h
      · exfalso
        have hdep := (C.hedge _ _ h).2
        have hle := hmax _ hmem_next
        rw [hgi'] at hdep
        omega
    have hpar2 : C.parent (verts.getD i (0, 0)) =
        some (verts.getD ((i + (verts.length - 1)) % verts.length) (0, 0)) := by
      rcases C.hcov _ _ e2 with h | h
      · exfalso
        have hdep := (C.hedge _ _ h).2
        have hle := hmax _ hmem_prev
        rw [hgi'] at hdep
        omega
      · exact h
    rw [hpar1] at hpar2
    have heq : verts.getD ((i + 1) % verts.length) (0, 0) =
        verts.getD ((i + (verts.length - 1)) % verts.length) (0, 0) := by
      injection hpar2
    exact cycIdx_ne hlen hi
      (hinj _ _ (Nat.mod_lt _ h0k) hprev_lt heq)

theorem mem_carvedFinset {m : Maze} {p : Pos} :
    p ∈ carvedFinset m ↔ carved m p := by
  unfold carvedFinset
  rw [Finset.mem_filter]
  constructor
  · exact fun h => h.2
  · intro h
    refine ⟨?_, h⟩
    simp only [Finset.mem_product, Finset.mem_range]
    exact ⟨h.1.1, h.1.2⟩

theorem mem_edgeFinset {m : Maze} {e : Pos × Pos} :
    e ∈ edgeFinset m ↔
      edgeOpen m e.1 e.2 ∧ (e.2.1 = e.1.1 + 1 ∨ e.2.2 = e.1.2 + 1) := by
  unfold edgeFinset
  rw [Finset.mem_filter]
  constructor
  · exact fun h => h.2
  · intro h
    refine ⟨?_, h⟩
    simp only [Finset.mem_product, Finset.mem_range]
    obtain ⟨h1, h2, _⟩ := h.1
    exact ⟨⟨h1.1, h1.2⟩, h2.1, h2.2⟩

theorem child_parent {m : Maze} (C : TreeCert m) {e : Pos × Pos}
    (he : e ∈ edgeFinset m) :
    C.parent (if C.parent e.1 = some e.2 then e.1 else e.2) =
      some (if C.parent e.1 = some e.2 then e.2 else e.1) := by
  have hedge := (mem_edgeFinset.mp he).1
  by_cases hc : C.parent e.1 = some e.2
  · rw [if_pos hc, if_pos hc]; exact hc
  · rw [if_neg hc, if_neg hc]
    rcases C.hcov _ _ hedge with h | h
    · exact absurd h hc
    · exact h

theorem canonical_unique {c o : Pos} (hadj : adjacent c o)
    (h1 : o.1 = c.1 + 1 ∨ o.2 = c.2 + 1)
    (h2 : c.1 = o.1 + 1 ∨ c.2 = o.2 + 1) : False := by
  unfold adjacent at hadj
  omega

theorem cert_count {m : Maze} (C : TreeCert m) :
    (edgeFinset m).card + 1 = (carvedFinset m).card := by
  have hroot_mem : C.root ∈ carvedFinset m := mem_carvedFinset.mpr C.hroot
  have hbij : (edgeFinset m).card = ((carvedFinset m).erase C.root).card := by
    refine Finset.card_bij
      (fun e _ => if C.parent e.1 = some e.2 then e.1 else e.2) ?_ ?_ ?_
    · intro e he
      have hp := child_parent C he
      rw [Finset.mem_erase]
      refine ⟨?_, ?_⟩
      · intro hr
        have hr2 : (if C.parent e.1 = some e.2 then e.1 else e.2) = C.root := hr
        rw [hr2, C.hnone] at hp
        cases hp
      · show (if C.parent e.1 = some e.2 then e.1 else e.2) ∈ carvedFinset m
        exact mem_carvedFinset.mpr (edge_carved (C.hedge _ _ hp).1).1
    · intro e1 he1 e2 he2 heq
      have hp1 := child_parent C he1
      have hp2 := child_parent C he2
      have heq2 : (if C.parent e1.1 = some e1.2 then e1.1 else e1.2) =
          (if C.parent e2.1 = some e2.2 then e2.1 else e2.2) := heq
      rw [heq2] at hp1
      rw [hp1] at hp2
      injection hp2 with ho
      have hadj1 := ((mem_edgeFinset.mp he1).1).2.2.1
      have hflag1 := (mem_edgeFinset.mp he1).2
      have hadj2 := ((mem_edgeFinset.mp he2).1).2.2.1
      have hflag2 := (mem_edgeFinset.mp he2).2
      by_cases t1 : C.parent e1.1 = some e1.2 <;>
        by_cases t2 : C.parent e2.1 = some e2.2
      · rw [if_pos t1, if_pos t2] at heq2
        rw [if_pos t1, if_pos t2] at ho
        exact Prod.ext heq2 ho
      · rw [if_pos t1, if_neg t2] at heq2
        rw [if_pos t1, if_neg t2] at ho
        exfalso
        rw [← heq2, ← ho] at hflag2
        exact canonical_unique hadj1 hflag1 hflag2
      · rw [if_neg t1, if_pos t2] at heq2
        rw [if_neg t1, if_pos t2] at ho
        exfalso
        rw [heq2, ho] at hflag1
        exact canonical_unique hadj2 hflag2 hflag1
      · rw [if_neg t1, if_neg t2] at heq2
        rw [if_neg t1, if_neg t2] at ho
        exact Prod.ext ho heq2
    · intro c hcmem
      rw [Finset.mem_erase] at hcmem
      obtain ⟨hcroot, hcarv⟩ := hcmem
      obtain ⟨q, hq⟩ := Option.isSome_iff_exists.mp
        (C.hsome c (mem_carvedFinset.mp hcarv) hcroot)
      obtain ⟨hedge, hdep⟩ := C.hedge c q hq
      have hadj := hedge.2.2.1
      have hcases : (q.1 = c.1 + 1 ∨ q.2 = c.2 + 1) ∨
          (c.1 = q.1 + 1 ∨ c.2 = q.2 + 1) := by
        unfold adjacent at hadj
        omega
      rcases hcases with hpos | hneg
      · refine ⟨(c, q), mem_edgeFinset.mpr ⟨hedge, hpos⟩, ?_⟩
        show (if C.parent c = some q then c else q) = c
        rw [if_pos hq]
      · refine ⟨(q, c), mem_edgeFinset.mpr ⟨edgeOpen_symm hedge, hneg⟩, ?_⟩
        show (if C.parent q = some c then q else c) = c
        have hqc : C.parent q ≠ some c := by
          intro hqc
          have := (C.hedge q c hqc).2
          omega
        rw [if_neg hqc]
  have herase := Finset.card_erase_of_mem hroot_mem
  have hpos := Finset.card_pos.mpr ⟨C.root, hroot_mem⟩
  omega

theorem cert_TreeOn {m : Maze} (C : TreeCert m) : TreeOn m :=
  ⟨cert_connected C, fun verts => cert_no_cycle C verts⟩

theorem orAt_width (m : Maze) (i b : Nat) : (orAt m i b).width = m.width := rfl

theorem carve_as_orAt (m : Maze) (x y : Nat) (d : Direction) :
    m.carve x y d = orAt (orAt m (y * m.width + x) d.bit)
      ((d.travel (x, y)).2 * m.width + (d.travel (x, y)).1) d.opposite.bit := rfl

theorem set_oob {l : List Nat} {i : Nat} (h : l.length ≤ i) (v : Nat) :
    l.set i v = l := by
  apply List.ext_getElem
  · rw [List.length_set]
  · intro n h1 h2
    rw [List.getElem_set]
    rw [if_neg]
    omega

theorem orAt_comm (m : Maze) (i j bi bj : Nat) :
    orAt (orAt m i bi) j bj = orAt (orAt m j bj) i bi := by
  unfold orAt
  simp only [Maze.mk.injEq]
  refine ⟨trivial, trivial, ?_⟩
  by_cases hij : i = j
  · subst hij
    by_cases hi : i < m.cells.length
    · rw [getD_set_self hi, getD_set_self hi, List.set_set, List.set_set,
        Nat.lor_assoc, Nat.lor_assoc, Nat.lor_comm bi bj]
    · have hlen : m.cells.length ≤ i := Nat.le_of_not_lt hi
      have h1 : ∀ v v2 : Nat, (m.cells.set i v).set i v2 = m.cells := by
        intro v v2
        rw [set_oob (by rw [List.length_set]; exact hlen), set_oob hlen]
      rw [h1, h1]
  · rw [getD_set_other hij, getD_set_other (Ne.symm hij),
      List.set_comm _ _ _ hij]

theorem orAt_swap4 (m : Maze) (i1 i2 j1 j2 a1 a2 c1 c2 : Nat) :
    orAt (orAt (orAt (orAt m i1 a1) i2 a2) j1 c1) j2 c2 =
      orAt (orAt (orAt (orAt m j1 c1) j2 c2) i1 a1) i2 a2 := by
  calc orAt (orAt (orAt (orAt m i1 a1) i2 a2) j1 c1) j2 c2
      = orAt (orAt (orAt (orAt m i1 a1) j1 c1) i2 a2) j2 c2 := by
        rw [orAt_comm (orAt m i1 a1) i2 j1 a2 c1]
    _ = orAt (orAt (orAt (orAt m j1 c1) i1 a1) i2 a2) j2 c2 := by
        rw [orAt_comm m i1 j1 a1 c1]
    _ = orAt (orAt (orAt (orAt m j1 c1) i1 a1) j2 c2) i2 a2 := by
        rw [orAt_comm (orAt (orAt m j1 c1) i1 a1) i2 j2 a2 c2]
    _ = orAt (orAt (orAt (orAt m j1 c1) j2 c2) i1 a1) i2 a2 := by
        rw [orAt_comm (orAt m j1 c1) i1 j2 a1 c2]

theorem carve_comm (m : Maze) (x y x2 y2 : Nat) (d d2 : Direction) :
    (m.carve x y d).carve x2 y2 d2 = (m.carve x2 y2 d2).carve x y d := by
  simp only [carve_as_orAt, orAt_width]
  exact orAt_swap4 m _ _ _ _ _ _ _ _

theorem finish_walk_carve (wk : List Pos) (x y : Nat) (d : Direction) :
    ∀ m : Maze, finish_walk wk (m.carve x y d) =
      (finish_walk wk m).carve x y d := by
  induction wk with
  | nil => intro m; rfl
  | cons a rest ih =>
    cases rest with
    | nil => intro m; rfl
    | cons b rest2 =>
      intro m
      show finish_walk (b :: rest2)
        ((m.carve x y d).carve a.1 a.2 (directionBetween a b)) = _
      rw [carve_comm]
      rw [ih (m.carve a.1 a.2 (directionBetween a b))]
      rfl

theorem finish_walk_cons (a b : Pos) (rest : List Pos) (m : Maze) :
    finish_walk (a :: b :: rest) m =
      (finish_walk (b :: rest) m).carve a.1 a.2 (directionBetween a b) := by
  show finish_walk (b :: rest) (m.carve a.1 a.2 (directionBetween a b)) = _
  exact finish_walk_carve (b :: rest) a.1 a.2 (directionBetween a b) m

theorem finish_walk_dims (wk : List Pos) : ∀ m : Maze,
    (finish_walk wk m).width = m.width ∧
    (finish_walk wk m).height = m.height ∧
    (m.wf → (finish_walk wk m).wf) := by
  induction wk with
  | nil => intro m; exact ⟨rfl, rfl, id⟩
  | cons a rest ih =>
    cases rest with
    | nil => intro m; exact ⟨rfl, rfl, id⟩
    | cons b rest2 =>
      intro m
      obtain ⟨h1, h2, h3⟩ := ih (m.carve a.1 a.2 (directionBetween a b))
      have hc := carve_dims m a.1 a.2 (directionBetween a b)
      exact ⟨h1.trans hc.1, h2.trans hc.2,
        fun hw => h3 (carve_wf hw _ _ _)⟩

theorem lor_ne_zero_left {v c : Nat} (h : v ≠ 0) : v ||| c ≠ 0 := by
  intro h0
  apply h
  apply Nat.zero_of_testBit_eq_false
  intro i
  have h2 := congrArg (fun n => n.testBit i) h0
  simp only [Nat.testBit_lor, Nat.zero_testBit, Bool.or_eq_false_iff] at h2
  exact h2.1

/-- Cell values after carving between two adjacent in-bounds cells, in
terms of `directionBetween`. -/
theorem cellAt_carve_adj {m : Maze} (hm : m.wf) {a b : Pos} (ha : m.inB a)
    (hb : m.inB b) (hadj : adjacent a b) (p : Pos) (hp : m.inB p) :
    (m.carve a.1 a.2 (directionBetween a b)).cellAt p =
      if p = a then m.cellAt p ||| (directionBetween a b).bit
      else if p = b then m.cellAt p ||| (directionBetween a b).opposite.bit
      else m.cellAt p := by
  have hok := adjacent_travelOk ha hb hadj
  have htr := directionBetween_travel hadj
  have h := cellAt_carve hm ha.1 ha.2 hok p hp
  rw [h]
  rw [show ((a.1, a.2) : Pos) = a from rfl]
  rw [htr]

theorem carve_inB_iff {m : Maze} (a b : Pos) (p : Pos) :
    (m.carve a.1 a.2 (directionBetween a b)).inB p ↔ m.inB p := by
  have hdims := carve_dims m a.1 a.2 (directionBetween a b)
  unfold Maze.inB
  rw [hdims.1, hdims.2]

/-- The carved predicate after carving between adjacent in-bounds cells:
exactly the old carved cells plus the two endpoints. -/
theorem carved_carve_iff {m : Maze} (hm : m.wf) {a b : Pos} (ha : m.inB a)
    (hb : m.inB b) (hadj : adjacent a b) (p : Pos) :
    carved (m.carve a.1 a.2 (directionBetween a b)) p ↔
      carved m p ∨ p = a ∨ p = b := by
  constructor
  · rintro ⟨hin, hne⟩
    rw [carve_inB_iff] at hin
    by_cases hpa : p = a
    · exact Or.inr (Or.inl hpa)
    by_cases hpb : p = b
    · exact Or.inr (Or.inr hpb)
    left
    refine ⟨hin, ?_⟩
    rw [cellAt_carve_adj hm ha hb hadj p hin, if_neg hpa, if_neg hpb] at hne
    exact hne
  · intro h
    rcases h with h | h | h
    · refine ⟨(carve_inB_iff a b p).mpr h.1, ?_⟩
      rw [cellAt_carve_adj hm ha hb hadj p h.1]
      split_ifs <;> first | exact h.2 | exact lor_ne_zero_left h.2
    · subst h
      refine ⟨(carve_inB_iff p b p).mpr ha, ?_⟩
      rw [cellAt_carve_adj hm ha hb hadj p ha, if_pos rfl]
      intro h0
      exact hasBit_zero _ (h0 ▸ (hasBit_or (m.cellAt p) _ _).mpr (Or.inr rfl))
    · subst h
      refine ⟨(carve_inB_iff a p p).mpr hb, ?_⟩
      rw [cellAt_carve_adj hm ha hb hadj p hb]
      have hba : p ≠ a := Ne.symm (adjacent_ne hadj)
      rw [if_neg hba, if_pos rfl]
      intro h0
      exact hasBit_zero _ (h0 ▸ (hasBit_or (m.cellAt p) _ _).mpr (Or.inr rfl))

/-- The freshly carved passage is open in both directions. -/
theorem edgeOpen_carve_new {m : Maze} (hm : m.wf) {a b : Pos} (ha : m.inB a)
    (hb : m.inB b) (hadj : adjacent a b) :
    edgeOpen (m.carve a.1 a.2 (directionBetween a b)) a b := by
  refine ⟨(carve_inB_iff a b a).mpr ha, (carve_inB_iff a b b).mpr hb, hadj,
    ?_, ?_⟩
  · rw [cellAt_carve_adj hm ha hb hadj a ha, if_pos rfl]
    exact (hasBit_or _ _ _).mpr (Or.inr rfl)
  · rw [cellAt_carve_adj hm ha hb hadj b hb,
      if_neg (Ne.symm (adjacent_ne hadj)), if_pos rfl,
      directionBetween_opposite hadj]
    exact (hasBit_or _ _ _).mpr (Or.inr rfl)

/-- Open passages after carving between adjacent in-bounds cells:
exactly the old passages plus the new pair, in both orientations. -/
theorem edgeOpen_carve {m : Maze} (hm : m.wf) {a b : Pos} (ha : m.inB a)
    (hb : m.inB b) (hadj : adjacent a b) (p q : Pos) :
    edgeOpen (m.carve a.1 a.2 (directionBetween a b)) p q ↔
      edgeOpen m p q ∨ (p = a ∧ q = b) ∨ (p = b ∧ q = a) := by
  constructor
  · rintro ⟨hip, hiq, hadjpq, hbp, hbq⟩
    rw [carve_inB_iff] at hip hiq
    rw [cellAt_carve_adj hm ha hb hadj p hip] at hbp
    rw [cellAt_carve_adj hm ha hb hadj q hiq] at hbq
    by_cases hpa : p = a
    · by_cases hqb : q = b
      · exact Or.inr (Or.inl ⟨hpa, hqb⟩)
      · left
        rw [hpa] at hip hadjpq hbp hbq ⊢
        have hqa : q ≠ a := Ne.symm (adjacent_ne hadjpq)
        rw [if_pos rfl] at hbp
        rw [if_neg hqa, if_neg hqb] at hbq
        refine ⟨hip, hiq, hadjpq, ?_, hbq⟩
        rcases (hasBit_or _ _ _).mp hbp with h | h
        · exact h
        · exact absurd (directionBetween_inj hadj hadjpq h).symm hqb
    · by_cases hpb : p = b
      · by_cases hqa : q = a
        · exact Or.inr (Or.inr ⟨hpb, hqa⟩)
        · left
          rw [hpb] at hip hadjpq hbp hbq ⊢
          have hqb : q ≠ b := Ne.symm (adjacent_ne hadjpq)
          rw [if_neg (Ne.symm (adjacent_ne hadj)), if_pos rfl] at hbp
          rw [if_neg hqa, if_neg hqb] at hbq
          refine ⟨hip, hiq, hadjpq, ?_, hbq⟩
          rcases (hasBit_or _ _ _).mp hbp with h | h
          · exact h
          · exfalso
            rw [← directionBetween_opposite hadj] at h
            exact hqa (directionBetween_inj (adjacent_symm hadj) hadjpq h).symm
      · left
        rw [if_neg hpa, if_neg hpb] at hbp
        refine ⟨hip, hiq, hadjpq, hbp, ?_⟩
        by_cases hqa : q = a
        · rw [hqa] at hadjpq hbq ⊢
          rw [if_pos rfl] at hbq
          rcases (hasBit_or _ _ _).mp hbq with h | h
          · exact h
          · exact absurd
              (directionBetween_inj hadj (adjacent_symm hadjpq) h).symm hpb
        · by_cases hqb : q = b
          · rw [hqb] at hadjpq hbq ⊢
            rw [if_neg (Ne.symm (adjacent_ne hadj)), if_pos rfl] at hbq
            rcases (hasBit_or _ _ _).mp hbq with h | h
            · exact h
            · exfalso
              rw [← directionBetween_opposite hadj] at h
              exact hpa (directionBetween_inj (adjacent_symm hadj)
                (adjacent_symm hadjpq) h).symm
          · rw [if_neg hqa, if_neg hqb] at hbq
            exact hbq
  · rintro (h | ⟨hpa, hqb⟩ | ⟨hpb, hqa⟩)
    · obtain ⟨hip, hiq, hadjpq, hbp, hbq⟩ := h
      refine ⟨(carve_inB_iff a b p).mpr hip, (carve_inB_iff a b q).mpr hiq,
        hadjpq, ?_, ?_⟩
      · rw [cellAt_carve_adj hm ha hb hadj p hip]
        split_ifs <;>
          first
          | exact hbp
          | exact (hasBit_or _ _ _).mpr (Or.inl hbp)
      · rw [cellAt_carve_adj hm ha hb hadj q hiq]
        split_ifs <;>
          first
          | exact hbq
          | exact (hasBit_or _ _ _).mpr (Or.inl hbq)
    · rw [hpa, hqb]
      exact edgeOpen_carve_new hm ha hb hadj
    · rw [hpb, hqa]
      exact edgeOpen_symm (edgeOpen_carve_new hm ha hb hadj)

theorem finish_walk_untouched (wk : List Pos) : ∀ m : Maze, m.wf →
    wk.Chain' adjacent → (∀ r ∈ wk, m.inB r) →
    ∀ p, m.inB p → p ∉ wk → (finish_walk wk m).cellAt p = m.cellAt p := by
  induction wk with
  | nil => intro m _ _ _ p _ _; rfl
  | cons a rest ih =>
    cases rest with
    | nil => intro m _ _ _ p _ _; rfl
    | cons b rest2 =>
      intro m hm hch hin p hp hnp
      rw [finish_walk_cons]
      obtain ⟨hadj, hch2⟩ := List.chain'_cons.mp hch
      have hwf2 := (finish_walk_dims (b :: rest2) m).2.2 hm
      have hdw := (finish_walk_dims (b :: rest2) m).1
      have hdh := (finish_walk_dims (b :: rest2) m).2.1
      have hinBfw : ∀ r : Pos, (finish_walk (b :: rest2) m).inB r ↔ m.inB r := by
        intro r
        unfold Maze.inB
        rw [hdw, hdh]
      have hafw : (finish_walk (b :: rest2) m).inB a :=
        (hinBfw a).mpr (hin a (List.mem_cons_self _ _))
      have hbfw : (finish_walk (b :: rest2) m).inB b :=
        (hinBfw b).mpr (hin b (List.mem_cons_of_mem _ (List.mem_cons_self _ _)))
      have hpfw : (finish_walk (b :: rest2) m).inB p := (hinBfw p).mpr hp
      rw [cellAt_carve_adj hwf2 hafw hbfw hadj p hpfw]
      have hpa : p ≠ a := fun h => hnp (by rw [h]; exact List.mem_cons_self _ _)
      have hpb : p ≠ b := fun h =>
        hnp (by rw [h]; exact List.mem_cons_of_mem _ (List.mem_cons_self _ _))
      rw [if_neg hpa, if_neg hpb]
      exact ih m hm hch2 (fun r hr => hin r (List.mem_cons_of_mem _ hr)) p hp
        (fun h => hnp (List.mem_cons_of_mem _ h))

/-- Committing an attaching walk (all cells fresh except the carved
last one) onto a certified maze keeps a certificate; the carved region
grows by exactly the walk cells. -/
theorem finish_walk_attach (wk : List Pos) : ∀ m : Maze, m.wf →
    wk.Chain' adjacent → wk.Nodup → (∀ r ∈ wk, m.inB r) →
    (∀ r ∈ wk.dropLast, m.cellAt r = 0) →
    (∀ r, wk.getLast? = some r → carved m r) →
    TreeCert m →
    Nonempty (TreeCert (finish_walk wk m)) ∧
    (∀ p, carved (finish_walk wk m) p ↔ carved m p ∨ p ∈ wk) := by
  induction wk with
  | nil =>
    intro m _ _ _ _ _ _ C
    refine ⟨⟨C⟩, fun p => ?_⟩
    constructor
    · exact fun h => Or.inl h
    · rintro (h | h)
      · exact h
      · exact absurd h (List.not_mem_nil p)
  | cons a rest ih =>
    cases rest with
    | nil =>
      intro m hm hch hnd hin hfr hlast C
      have hca : carved m a := hlast a rfl
      refine ⟨⟨C⟩, fun p => ?_⟩
      constructor
      · exact fun h => Or.inl h
      · rintro (h | h)
        · exact h
        · rw [List.mem_singleton] at h
          rw [h]
          exact hca
    | cons b rest2 =>
      intro m hm hch hnd hin hfr hlast C
      obtain ⟨hadj, hch2⟩ := List.chain'_cons.mp hch
      have hnd2 := (List.nodup_cons.mp hnd).2
      have hna : a ∉ b :: rest2 := (List.nodup_cons.mp hnd).1
      have hin2 : ∀ r ∈ b :: rest2, m.inB r :=
        fun r hr => hin r (List.mem_cons_of_mem _ hr)
      have hdl : (a :: b :: rest2).dropLast = a :: (b :: rest2).dropLast := rfl
      have hfr2 : ∀ r ∈ (b :: rest2).dropLast, m.cellAt r = 0 := by
        intro r hr
        apply hfr
        rw [hdl]
        exact List.mem_cons_of_mem _ hr
      have hlast2 : ∀ r, (b :: rest2).getLast? = some r → carved m r := by
        intro r hr
        apply hlast
        rw [List.getLast?_cons_cons]
        exact hr
      obtain ⟨⟨C2⟩, hcar2⟩ := ih m hm hch2 hnd2 hin2 hfr2 hlast2 C
      have hwfw := (finish_walk_dims (b :: rest2) m).2.2 hm
      have hdw := (finish_walk_dims (b :: rest2) m).1
      have hdh := (finish_walk_dims (b :: rest2) m).2.1
      have hinBfw : ∀ r : Pos, (finish_walk (b :: rest2) m).inB r ↔ m.inB r := by
        intro r
        unfold Maze.inB
        rw [hdw, hdh]
      have hafw : (finish_walk (b :: rest2) m).inB a :=
        (hinBfw a).mpr (hin a (List.mem_cons_self _ _))
      have hbfw : (finish_walk (b :: rest2) m).inB b :=
        (hinBfw b).mpr (hin2 b (List.mem_cons_self _ _))
      have ha0 : m.cellAt a = 0 := by
        apply hfr
        rw [hdl]
        exact List.mem_cons_self _ _
      have hafresh : ¬ carved (finish_walk (b :: rest2) m) a := by
        intro hc
        rcases (hcar2 a).mp hc with h | h
        · exact h.2 ha0
        · exact hna h
      have hbcar : carved (finish_walk (b :: rest2) m) b :=
        (hcar2 b).mpr (Or.inr (List.mem_cons_self _ _))
      have hE := edgeOpen_carve hwfw hafw hbfw hadj
      have hC := fun p => carved_carve_iff hwfw hafw hbfw hadj p
      rw [finish_walk_cons]
      refine ⟨⟨cert_add_leaf C2 hE hC hafresh hbcar⟩, fun p => ?_⟩
      rw [hC p, hcar2 p]
      constructor
      · rintro ((h | h) | h | h)
        · exact Or.inl h
        · exact Or.inr (List.mem_cons_of_mem _ h)
        · rw [h]
          exact Or.inr (List.mem_cons_self _ _)
        · rw [h]
          exact Or.inr (List.mem_cons_of_mem _ (List.mem_cons_self _ _))
      · rintro (h | h)
        · exact Or.inl (Or.inl h)
        · rcases List.mem_cons.mp h with h | h
          · exact Or.inr (Or.inl h)
          · exact Or.inl (Or.inr h)

/-- Committing the first walk (all cells fresh, length at least two)
onto a fully uncarved maze creates a certificate; the carved region is
exactly the walk. -/
theorem finish_walk_fresh (wk : List Pos) : ∀ m : Maze, m.wf →
    wk.Chain' adjacent → wk.Nodup → (∀ r ∈ wk, m.inB r) →
    (∀ r ∈ wk, m.cellAt r = 0) →
    (∀ p, ¬ carved m p) → 2 ≤ wk.length →
    Nonempty (TreeCert (finish_walk wk m)) ∧
    (∀ p, carved (finish_walk wk m) p ↔ p ∈ wk) := by
  induction wk with
  | nil =>
    intro m _ _ _ _ _ _ hlen
    simp at hlen
  | cons a rest ih =>
    cases rest with
    | nil =>
      intro m _ _ _ _ _ _ hlen
      simp at hlen
    | cons b rest2 =>
      intro m hm hch hnd hin h0 hnc hlen
      obtain ⟨hadj, hch2⟩ := List.chain'_cons.mp hch
      cases rest2 with
      | nil =>
        have hab := adjacent_ne hadj
        have hain : m.inB a := hin a (List.mem_cons_self _ _)
        have hbin : m.inB b :=
          hin b (List.mem_cons_of_mem _ (List.mem_cons_self _ _))
        have hE := edgeOpen_carve hm hain hbin hadj
        have hC := fun p => carved_carve_iff hm hain hbin hadj p
        refine ⟨⟨cert_first_edge hnc hE hC hab⟩, fun p => ?_⟩
        show carved (m.carve a.1 a.2 (directionBetween a b)) p ↔ p ∈ [a, b]
        rw [hC p]
        constructor
        · rintro (h | h | h)
          · exact absurd h (hnc p)
          · rw [h]
            exact List.mem_cons_self _ _
          · rw [h]
            exact List.mem_cons_of_mem _ (List.mem_cons_self _ _)
        · intro h
          rcases List.mem_cons.mp h with h | h
          · exact Or.inr (Or.inl h)
          · rw [List.mem_singleton] at h
            exact Or.inr (Or.inr h)
      | cons c rest3 =>
        have hnd2 := (List.nodup_cons.mp hnd).2
        have hna : a ∉ b :: c :: rest3 := (List.nodup_cons.mp hnd).1
        have hin2 : ∀ r ∈ b :: c :: rest3, m.inB r :=
          fun r hr => hin r (List.mem_cons_of_mem _ hr)
        have h02 : ∀ r ∈ b :: c :: rest3, m.cellAt r = 0 :=
          fun r hr => h0 r (List.mem_cons_of_mem _ hr)
        obtain ⟨⟨C2⟩, hcar2⟩ := ih m hm hch2 hnd2 hin2 h02 hnc (by simp)
        have hwfw := (finish_walk_dims (b :: c :: rest3) m).2.2 hm
        have hdw := (finish_walk_dims (b :: c :: rest3) m).1
        have hdh := (finish_walk_dims (b :: c :: rest3) m).2.1
        have hinBfw : ∀ r : Pos,
            (finish_walk (b :: c :: rest3) m).inB r ↔ m.inB r := by
          intro r
          unfold Maze.inB
          rw [hdw, hdh]
        have hafw : (finish_walk (b :: c :: rest3) m).inB a :=
          (hinBfw a).mpr (hin a (List.mem_cons_self _ _))
        have hbfw : (finish_walk (b :: c :: rest3) m).inB b :=
          (hinBfw b).mpr (hin2 b (List.mem_cons_self _ _))
        have hafresh : ¬ carved (finish_walk (b :: c :: rest3) m) a :=
          fun hc => hna ((hcar2 a).mp hc)
        have hbcar : carved (finish_walk (b :: c :: rest3) m) b :=
          (hcar2 b).mpr (List.mem_cons_self _ _)
        have hE := edgeOpen_carve hwfw hafw hbfw hadj
        have hC := fun p => carved_carve_iff hwfw hafw hbfw hadj p
        rw [finish_walk_cons]
        refine ⟨⟨cert_add_leaf C2 hE hC hafresh hbcar⟩, fun p => ?_⟩
        rw [hC p, hcar2 p]
        constructor
        · rintro (h | h | h)
          · exact List.mem_cons_of_mem _ h
          · rw [h]
            exact List.mem_cons_self _ _
          · rw [h]
            exact List.mem_cons_of_mem _ (List.mem_cons_self _ _)
        · intro h
          rcases List.mem_cons.mp h with h | h
          · exact Or.inr (Or.inl h)
          · exact Or.inl h

theorem pos_in_stack_none_iff (wk : List Pos) (p : Pos) :
    pos_in_stack wk p = none ↔ p ∉ wk := by
  induction wk with
  | nil => simp [pos_in_stack]
  | cons q rest ih =>
    simp only [pos_in_stack]
    by_cases h : p = q
    · rw [if_pos h]
      simp [h]
    · rw [if_neg h]
      simp [Option.map_eq_none', ih, List.mem_cons, h]

theorem pos_in_stack_some_lt {wk : List Pos} {p : Pos} {i : Nat}
    (h : pos_in_stack wk p = some i) : i < wk.length := by
  induction wk generalizing i with
  | nil => cases h
  | cons q rest ih =>
    simp only [pos_in_stack] at h
    by_cases hpq : p = q
    · rw [if_pos hpq] at h
      injection h with h2
      simp only [List.length_cons]
      omega
    · rw [if_neg hpq] at h
      cases ho : pos_in_stack rest p with
      | none =>
        rw [ho] at h
        cases h
      | some j =>
        rw [ho] at h
        simp only [Option.map_some'] at h
        injection h with h2
        have := ih ho
        simp only [List.length_cons]
        omega

theorem wilsonDraw_mem {nbrs : List (Pos × Direction)} {opp : Option Direction} :
    ∀ {stream rest : List Nat} {x : Pos × Direction},
    wilsonDraw nbrs opp stream = some (x, rest) → x ∈ nbrs := by
  intro stream
  induction stream with
  | nil => intro rest x h; cases h
  | cons k tail ih =>
    intro rest x h
    simp only [wilsonDraw] at h
    by_cases h0 : nbrs.length = 0
    · rw [if_pos h0] at h
      cases h
    · rw [if_neg h0] at h
      have hlt : k % nbrs.length < nbrs.length :=
        Nat.mod_lt _ (Nat.pos_of_ne_zero h0)
      have hmem : nbrs.getD (k % nbrs.length) ((0, 0), Direction.UP) ∈ nbrs := by
        rw [List.getD_eq_getElem _ _ hlt]
        exact List.getElem_mem _
      split at h
      · split at h
        · exact ih h
        · have hx : nbrs.getD (k % nbrs.length) ((0, 0), Direction.UP) = x := by
            injection h with h1
            exact congrArg Prod.fst h1
          rw [← hx]
          exact hmem
      · have hx : nbrs.getD (k % nbrs.length) ((0, 0), Direction.UP) = x := by
          injection h with h1
          exact congrArg Prod.fst h1
        rw [← hx]
        exact hmem

theorem mem_get_neighbors {m : Maze} {p : Pos} {x : Pos × Direction}
    (hp : m.inB p) (hx : x ∈ m.get_neighbors p) :
    adjacent p x.1 ∧ m.inB x.1 := by
  have hp2 := hp
  simp only [Maze.inB] at hp2
  have hone : ∀ (c : Prop) (inst : Decidable c) (y : Pos × Direction),
      x ∈ (if c then [y] else []) → c ∧ x = y := by
    intro c inst y hmem
    by_cases hc : c
    · rw [if_pos hc] at hmem
      exact ⟨hc, List.mem_singleton.mp hmem⟩
    · rw [if_neg hc] at hmem
      exact absurd hmem (List.not_mem_nil x)
  unfold Maze.get_neighbors at hx
  simp only [List.mem_append] at hx
  rcases hx with ((h | h) | h) | h <;>
    obtain ⟨hc, hxe⟩ := hone _ _ _ h <;>
    subst hxe <;>
    refine ⟨?_, ?_⟩ <;>
    simp [adjacent, Maze.inB] <;>
    omega

theorem step_out_eq {a : Wilson} {b : Maze} {c : Bool} {d : List Nat}
    {s2 : Wilson} {m2 : Maze} {done : Bool} {rest : List Nat}
    (h : (some ((a, b, c), d) : Option ((Wilson × Maze × Bool) × List Nat)) =
      some ((s2, m2, done), rest)) :
    s2 = a ∧ m2 = b ∧ done = c ∧ rest = d := by
  injection h with h1
  have h2 := congrArg (fun x : (Wilson × Maze × Bool) × List Nat => x.1.1) h1
  have h3 := congrArg (fun x : (Wilson × Maze × Bool) × List Nat => x.1.2.1) h1
  have h4 := congrArg (fun x : (Wilson × Maze × Bool) × List Nat => x.1.2.2) h1
  have h5 := congrArg (fun x : (Wilson × Maze × Bool) × List Nat => x.2) h1
  exact ⟨h2.symm, h3.symm, h4.symm, h5.symm⟩

theorem create_new_walk_spec {m : Maze} (hm : m.wf) (hw : 1 ≤ m.width)
    {s : Wilson} {stream : List Nat} {s2 : Wilson} {done : Bool}
    {rest : List Nat}
    (h : create_new_walk m s stream = some ((s2, done), rest)) :
    s2.first_walk_target = s.first_walk_target ∧
    ((done = true ∧ s2.walk = [] ∧ ∀ p, m.inB p → carved m p) ∨
     (done = false ∧ ∃ c, s2.walk = [c] ∧ m.inB c ∧ m.cellAt c = 0)) := by
  simp only [create_new_walk] at h
  by_cases hp : (List.range m.cells.length).filterMap
      (fun i => if m.cells.getD i 0 = 0
        then some ((i % m.width, i / m.width) : Pos) else none) = [] 
  · rw [if_pos hp] at h
    injection h with h1
    obtain ⟨hXY, hstr⟩ := (Prod.mk.injEq _ _ _ _).mp h1
    obtain ⟨hW, hdone⟩ := (Prod.mk.injEq _ _ _ _).mp hXY
    constructor
    · rw [← hW]
    · left
      refine ⟨hdone.symm, by rw [← hW], ?_⟩
      intro p hinp
      have hidx := List.filterMap_eq_nil_iff.mp hp (p.2 * m.width + p.1)
        (List.mem_range.mpr (idx_lt hm hinp.1 hinp.2))
      by_cases hc : m.cells.getD (p.2 * m.width + p.1) 0 = 0
      · rw [if_pos hc] at hidx
        cases hidx
      · exact ⟨hinp, hc⟩
  · rw [if_neg hp] at h
    cases stream with
    | nil => cases h
    | cons k tail =>
      injection h with h1
      obtain ⟨hXY, hstr⟩ := (Prod.mk.injEq _ _ _ _).mp h1
      obtain ⟨hW, hdone⟩ := (Prod.mk.injEq _ _ _ _).mp hXY
      constructor
      · rw [← hW]
      · right
        refine ⟨hdone.symm, ?_⟩
        have hlen : 0 < ((List.range m.cells.length).filterMap
            (fun i => if m.cells.getD i 0 = 0
              then some ((i % m.width, i / m.width) : Pos) else none)).length :=
          List.length_pos.mpr hp
        have hmem : ((List.range m.cells.length).filterMap
            (fun i => if m.cells.getD i 0 = 0
              then some ((i % m.width, i / m.width) : Pos) else none)).getD
            (k % ((List.range m.cells.length).filterMap
              (fun i => if m.cells.getD i 0 = 0
                then some ((i % m.width, i / m.width) : Pos) else none)).length)
            (0, 0) ∈ (List.range m.cells.length).filterMap
            (fun i => if m.cells.getD i 0 = 0
              then some ((i % m.width, i / m.width) : Pos) else none) := by
          rw [List.getD_eq_getElem _ _ (Nat.mod_lt _ hlen)]
          exact List.getElem_mem _
        rw [List.mem_filterMap] at hmem
        obtain ⟨i, hi, hif⟩ := hmem
        by_cases hc : m.cells.getD i 0 = 0
        · rw [if_pos hc] at hif
          injection hif with hif2
          refine ⟨(i % m.width, i / m.width), ?_, ?_, ?_⟩
          · rw [← hW, hif2]
          · have hiL := List.mem_range.mp hi
            rw [hm] at hiL
            exact ⟨Nat.mod_lt _ hw, (Nat.div_lt_iff_lt_mul hw).mpr
              (by rw [Nat.mul_comm]; exact hiL)⟩
          · show m.cells.getD ((i / m.width) * m.width + i % m.width) 0 = 0
            rw [show (i / m.width) * m.width + i % m.width = i from by
              rw [Nat.mul_comm]; exact Nat.div_add_mod i m.width]
            exact hc
        · rw [if_neg hc] at hif
          cases hif

theorem wilson_step_inv {w h : Nat} {m : Maze} {s : Wilson}
    (inv : WInv w h m s) (hw : 1 ≤ w)
    {stream rest : List Nat} {s2 : Wilson} {m2 : Maze} {done : Bool}
    (hstep : wilsonStep m s stream = some ((s2, m2, done), rest)) :
    WInv w h m2 s2 ∧ (done = true → ∀ p, m2.inB p → carved m2 p) := by
  simp only [wilsonStep] at hstep
  split at hstep
  · rename_i hlastw
    obtain ⟨hs2, hm2, hdone, hrest⟩ := step_out_eq hstep
    subst hs2
    subst hm2
    subst hdone
    subst hrest
    exact ⟨inv, fun _ => inv.hempty (List.getLast?_eq_none_iff.mp hlastw)⟩
  · rename_i pos hlastw
    split at hstep
    · exact Option.noConfusion hstep
    · rename_i nxt rest1 hdr
      have hpos_mem := List.mem_of_getLast?_eq_some hlastw
      have hposB := (inv.hmem pos hpos_mem).1
      have hnn := wilsonDraw_mem hdr
      obtain ⟨hadjp, hnpB⟩ := mem_get_neighbors hposB hnn
      have hwne : s.walk ≠ [] := by
        intro he
        rw [he] at hlastw
        cases hlastw
      split at hstep
      · rename_i break_index hpis
        obtain ⟨hs2, hm2, hdone, hrest⟩ := step_out_eq hstep
        subst hs2
        subst hm2
        subst hdone
        subst hrest
        have hbi := pos_in_stack_some_lt hpis
        refine ⟨?_, fun hd => absurd hd Bool.false_ne_true⟩
        exact {
          hwidth := inv.hwidth
          hheight := inv.hheight
          hwf := inv.hwf
          hmaze := inv.hmaze
          hnd := List.Nodup.sublist (List.take_sublist _ _) inv.hnd
          hch := inv.hch.take _
          hmem := fun r hr => inv.hmem r (List.Sublist.mem hr (List.take_sublist _ _))
          htarget := inv.htarget
          hempty := by
            intro he
            exfalso
            have h2 := congrArg List.length he
            rw [List.length_take] at h2
            simp only [List.length_nil] at h2
            omega }
      · rename_i hpis
        have hnotin := (pos_in_stack_none_iff _ _).mp hpis
        have hnd2 : (s.walk ++ [nxt.1]).Nodup := by
          rw [List.nodup_append]
          refine ⟨inv.hnd, List.nodup_singleton _, ?_⟩
          intro a ha hb
          rw [List.mem_singleton] at hb
          rw [hb] at ha
          exact hnotin ha
        have hch2 : (s.walk ++ [nxt.1]).Chain' adjacent := by
          rw [List.chain'_append]
          refine ⟨inv.hch, List.chain'_singleton _, ?_⟩
          intro x hx y hy
          have hx2 := Option.mem_def.mp hx
          rw [hlastw] at hx2
          injection hx2 with hx3
          have hy2 := Option.mem_def.mp hy
          injection hy2 with hy3
          rw [← hx3, ← hy3]
          exact hadjp
        have hinw : ∀ r ∈ s.walk ++ [nxt.1], m.inB r := by
          intro r hr
          rcases List.mem_append.mp hr with hh2 | hh2
          · exact (inv.hmem r hh2).1
          · rw [List.mem_singleton] at hh2
            rw [hh2]
            exact hnpB
        have hlen2 : 2 ≤ (s.walk ++ [nxt.1]).length := by
          rw [List.length_append, List.length_singleton]
          have hl1 := List.length_pos.mpr hwne
          omega
        split at hstep
        · rename_i hc
          split at hstep
          · exact Option.noConfusion hstep
          · rename_i s2x donex rest2 hcnw
            obtain ⟨hs2, hm2, hdone, hrest⟩ := step_out_eq hstep
            subst hs2
            subst hm2
            subst hdone
            subst hrest
            have hnp_car : carved m nxt.1 := ⟨hnpB, hc⟩
            have hcert : Nonempty (TreeCert m) := by
              rcases inv.hmaze with hz | hcert
              · exact absurd hnp_car (hz nxt.1)
              · exact hcert
            obtain ⟨C⟩ := hcert
            have hfr : ∀ r ∈ (s.walk ++ [nxt.1]).dropLast, m.cellAt r = 0 := by
              intro r hr
              rw [List.dropLast_concat] at hr
              exact (inv.hmem r hr).2
            have hlastc : ∀ r, (s.walk ++ [nxt.1]).getLast? = some r →
                carved m r := by
              intro r hr
              rw [List.getLast?_concat] at hr
              injection hr with hr2
              rw [← hr2]
              exact hnp_car
            obtain ⟨⟨C2⟩, hcar2⟩ := finish_walk_attach (s.walk ++ [nxt.1]) m
              inv.hwf hch2 hnd2 hinw hfr hlastc C
            have hdimw := (finish_walk_dims (s.walk ++ [nxt.1]) m).1
            have hdimh := (finish_walk_dims (s.walk ++ [nxt.1]) m).2.1
            have hwf2 := (finish_walk_dims (s.walk ++ [nxt.1]) m).2.2 inv.hwf
            have hw2 : 1 ≤ (finish_walk (s.walk ++ [nxt.1]) m).width := by
              rw [hdimw, inv.hwidth]
              exact hw
            obtain ⟨htg, hcases⟩ := create_new_walk_spec hwf2 hw2 hcnw
            rcases hcases with ⟨hdT, hwalkE, hallc⟩ | ⟨hdF, c, hwalkC, hcB, hc0⟩
            · refine ⟨?_, fun _ => hallc⟩
              exact {
                hwidth := by rw [hdimw, inv.hwidth]
                hheight := by rw [hdimh, inv.hheight]
                hwf := hwf2
                hmaze := Or.inr ⟨C2⟩
                hnd := by rw [hwalkE]; exact List.nodup_nil
                hch := by rw [hwalkE]; exact List.chain'_nil
                hmem := by
                  intro r hr
                  rw [hwalkE] at hr
                  exact absurd hr (List.not_mem_nil r)
                htarget := by
                  intro t ht
                  rw [htg] at ht
                  exact Option.noConfusion ht
                hempty := fun _ => hallc }
            · refine ⟨?_, by intro hd; rw [hdF] at hd; exact absurd hd Bool.false_ne_true⟩
              exact {
                hwidth := by rw [hdimw, inv.hwidth]
                hheight := by rw [hdimh, inv.hheight]
                hwf := hwf2
                hmaze := Or.inr ⟨C2⟩
                hnd := by rw [hwalkC]; exact List.nodup_singleton _
                hch := by rw [hwalkC]; exact List.chain'_singleton _
                hmem := by
                  intro r hr
                  rw [hwalkC, List.mem_singleton] at hr
                  rw [hr]
                  exact ⟨hcB, hc0⟩
                htarget := by
                  intro t ht
                  rw [htg] at ht
                  exact Option.noConfusion ht
                hempty := by
                  intro he
                  rw [hwalkC] at he
                  cases he }
        · rename_i hc
          have hnp0 : m.cellAt nxt.1 = 0 := not_not.mp hc
          have hmem2 : ∀ r ∈ s.walk ++ [nxt.1], m.inB r ∧ m.cellAt r = 0 := by
            intro r hr
            rcases List.mem_append.mp hr with hh2 | hh2
            · exact inv.hmem r hh2
            · rw [List.mem_singleton] at hh2
              rw [hh2]
              exact ⟨hnpB, hnp0⟩
          split at hstep
          · rename_i target htgt
            split at hstep
            · rename_i hteq
              split at hstep
              · exact Option.noConfusion hstep
              · rename_i s2x donex rest2 hcnw
                obtain ⟨hs2, hm2, hdone, hrest⟩ := step_out_eq hstep
                subst hs2
                subst hm2
                subst hdone
                subst hrest
                have hz := inv.htarget target htgt
                have hfr0 : ∀ r ∈ s.walk ++ [nxt.1], m.cellAt r = 0 :=
                  fun r hr => (hmem2 r hr).2
                obtain ⟨⟨C2⟩, hcar2⟩ := finish_walk_fresh (s.walk ++ [nxt.1]) m
                  inv.hwf hch2 hnd2 hinw hfr0 hz hlen2
                have hdimw := (finish_walk_dims (s.walk ++ [nxt.1]) m).1
                have hdimh := (finish_walk_dims (s.walk ++ [nxt.1]) m).2.1
                have hwf2 := (finish_walk_dims (s.walk ++ [nxt.1]) m).2.2 inv.hwf
                have hw2 : 1 ≤ (finish_walk (s.walk ++ [nxt.1]) m).width := by
                  rw [hdimw, inv.hwidth]
                  exact hw
                obtain ⟨htg, hcases⟩ := create_new_walk_spec hwf2 hw2 hcnw
                rcases hcases with ⟨hdT, hwalkE, hallc⟩ | ⟨hdF, c, hwalkC, hcB, hc0⟩
                · refine ⟨?_, fun _ => hallc⟩
                  exact {
                    hwidth := by rw [hdimw, inv.hwidth]
                    hheight := by rw [hdimh, inv.hheight]
                    hwf := hwf2
                    hmaze := Or.inr ⟨C2⟩
                    hnd := by rw [hwalkE]; exact List.nodup_nil
                    hch := by rw [hwalkE]; exact List.chain'_nil
                    hmem := by
                      intro r hr
                      rw [hwalkE] at hr
                      exact absurd hr (List.not_mem_nil r)
                    htarget := by
                      intro t ht
                      rw [htg] at ht
                      exact Option.noConfusion ht
                    hempty := fun _ => hallc }
                · refine ⟨?_, by intro hd; rw [hdF] at hd; exact absurd hd Bool.false_ne_true⟩
                  exact {
                    hwidth := by rw [hdimw, inv.hwidth]
                    hheight := by rw [hdimh, inv.hheight]
                    hwf := hwf2
                    hmaze := Or.inr ⟨C2⟩
                    hnd := by rw [hwalkC]; exact List.nodup_singleton _
                    hch := by rw [hwalkC]; exact List.chain'_singleton _
                    hmem := by
                      intro r hr
                      rw [hwalkC, List.mem_singleton] at hr
                      rw [hr]
                      exact ⟨hcB, hc0⟩
                    htarget := by
                      intro t ht
                      rw [htg] at ht
                      exact Option.noConfusion ht
                    hempty := by
                      intro he
                      rw [hwalkC] at he
                      cases he }
            · rename_i hteq
              obtain ⟨hs2, hm2, hdone, hrest⟩ := step_out_eq hstep
              subst hs2
              subst hm2
              subst hdone
              subst hrest
              refine ⟨?_, fun hd => absurd hd Bool.false_ne_true⟩
              exact {
                hwidth := inv.hwidth
                hheight := inv.hheight
                hwf := inv.hwf
                hmaze := inv.hmaze
                hnd := hnd2
                hch := hch2
                hmem := hmem2
                htarget := fun t ht => inv.htarget t ht
                hempty := by
                  intro he
                  have h2 := congrArg List.length he
                  rw [List.length_append, List.length_singleton] at h2
                  simp only [List.length_nil] at h2
                  omega }
          · rename_i htgt
            obtain ⟨hs2, hm2, hdone, hrest⟩ := step_out_eq hstep
            subst hs2
            subst hm2
            subst hdone
            subst hrest
            refine ⟨?_, fun hd => absurd hd Bool.false_ne_true⟩
            exact {
              hwidth := inv.hwidth
              hheight := inv.hheight
              hwf := inv.hwf
              hmaze := inv.hmaze
              hnd := hnd2
              hch := hch2
              hmem := hmem2
              htarget := fun t ht => inv.htarget t ht
              hempty := by
                intro he
                have h2 := congrArg List.length he
                rw [List.length_append, List.length_singleton] at h2
                simp only [List.length_nil] at h2
                omega }

theorem cellAt_new (w h : Nat) (p : Pos) : (Maze.new w h).cellAt p = 0 := by
  unfold Maze.new Maze.cellAt
  by_cases hlt : p.2 * w + p.1 < (List.replicate (w * h) 0).length
  · rw [List.getD_eq_getElem _ _ hlt, List.getElem_replicate]
  · rw [List.getD_eq_default _ _ (Nat.le_of_not_lt hlt)]

theorem wilsonNew_spec {w h : Nat} (hw : 1 ≤ w) (hh : 1 ≤ h)
    {draws : List Nat} {s0 : Wilson} {rest0 : List Nat}
    (hinit : wilsonNew (w, h) draws = some (s0, rest0)) :
    WInv w h (Maze.new w h) s0 := by
  simp only [wilsonNew] at hinit
  rw [if_neg (by rintro (h0 | h0) <;> omega)] at hinit
  split at hinit
  · rename_i s1 s2 restd
    split at hinit
    · exact Option.noConfusion hinit
    · rename_i endCell rest2 hdl
      injection hinit with h1
      obtain ⟨hs0, hr0⟩ := (Prod.mk.injEq _ _ _ _).mp h1
      subst hs0
      exact {
        hwidth := rfl
        hheight := rfl
        hwf := Maze.new_wf w h
        hmaze := Or.inl (fun p hp => hp.2 (cellAt_new w h p))
        hnd := List.nodup_singleton _
        hch := List.chain'_singleton _
        hmem := by
          intro r hr
          rw [List.mem_singleton] at hr
          rw [hr]
          exact ⟨⟨Nat.mod_lt _ hw, Nat.mod_lt _ hh⟩, cellAt_new w h _⟩
        htarget := fun t ht p hp => hp.2 (cellAt_new w h p)
        hempty := by
          intro he
          cases he }
  · exact Option.noConfusion hinit

theorem wilson_run_inv {w h : Nat} (hw : 1 ≤ w) :
    ∀ (n : Nat) {m0 : Maze} {s0 : Wilson} {st0 : List Nat}
    {s : Wilson} {m : Maze} {st : List Nat} {done : Bool},
    WInv w h m0 s0 →
    wilsonRun m0 s0 st0 n = some (s, m, st, done) →
    WInv w h m s ∧ (done = true → ∀ p, m.inB p → carved m p) := by
  intro n
  induction n with
  | zero =>
    intro m0 s0 st0 s m st done inv hrun
    simp only [wilsonRun] at hrun
    injection hrun with h1
    obtain ⟨hs, h2⟩ := (Prod.mk.injEq _ _ _ _).mp h1
    obtain ⟨hm, h3⟩ := (Prod.mk.injEq _ _ _ _).mp h2
    obtain ⟨hst, hdone⟩ := (Prod.mk.injEq _ _ _ _).mp h3
    subst hs
    subst hm
    subst hdone
    exact ⟨inv, fun hd => absurd hd Bool.false_ne_true⟩
  | succ n ih =>
    intro m0 s0 st0 s m st done inv hrun
    simp only [wilsonRun] at hrun
    split at hrun
    · exact Option.noConfusion hrun
    · rename_i s1 m1 st1 d1 hrec
      split at hrun
      · exact Option.noConfusion hrun
      · rename_i s2x m2x d2 st2 hstepx
        injection hrun with h1
        obtain ⟨hs, h2⟩ := (Prod.mk.injEq _ _ _ _).mp h1
        obtain ⟨hm, h3⟩ := (Prod.mk.injEq _ _ _ _).mp h2
        obtain ⟨hst, hdone⟩ := (Prod.mk.injEq _ _ _ _).mp h3
        subst hs
        subst hm
        subst hdone
        exact wilson_step_inv (ih inv hrec).1 hw hstepx

/-- C1 (claim): along any Wilson run started by `Wilson::new` on a
fresh WxH grid (W, H at least 1) with any draw stream, whenever any
cell is carved the carved cells form a tree (connected through open
passages and acyclic) — in particular after every commit — and when a
step reports completion every cell is carved, the maze has exactly
W*H - 1 open passage-pairs, and every cell is reachable from (0,0)
through open passages. -/
theorem wilson_generates_spanning_tree (w h : Nat) (hw : 1 ≤ w) (hh : 1 ≤ h)
    (draws : List Nat) (s0 : Wilson) (rest0 : List Nat)
    (hinit : wilsonNew (w, h) draws = some (s0, rest0))
    (n : Nat) (s : Wilson) (m : Maze) (st : List Nat) (done : Bool)
    (hrun : wilsonRun (Maze.new w h) s0 rest0 n = some (s, m, st, done)) :
    ((∃ p, carved m p) → TreeOn m) ∧
    (done = true →
      (∀ p, m.inB p → carved m p) ∧
      (edgeFinset m).card = w * h - 1 ∧
      (∀ p, m.inB p → ReachE m (0, 0) p)) := by
  have inv0 := wilsonNew_spec hw hh hinit
  obtain ⟨inv, hdone⟩ := wilson_run_inv hw n inv0 hrun
  constructor
  · rintro ⟨p, hp⟩
    rcases inv.hmaze with hz | hcert
    · exact absurd hp (hz p)
    · obtain ⟨C⟩ := hcert
      exact cert_TreeOn C
  · intro hd
    have hall := hdone hd
    have h00 : m.inB (0, 0) := by
      unfold Maze.inB
      rw [inv.hwidth, inv.hheight]
      exact ⟨hw, hh⟩
    have hcert : Nonempty (TreeCert m) := by
      rcases inv.hmaze with hz | hc
      · exact absurd (hall (0, 0) h00) (hz (0, 0))
      · exact hc
    obtain ⟨C⟩ := hcert
    refine ⟨hall, ?_, ?_⟩
    · have hcount := cert_count C
      have hfull : carvedFinset m =
          Finset.range m.width ×ˢ Finset.range m.height := by
        unfold carvedFinset
        rw [Finset.filter_true_of_mem]
        intro p hp
        simp only [Finset.mem_product, Finset.mem_range] at hp
        exact hall p hp
      rw [hfull, Finset.card_product, Finset.card_range, Finset.card_range,
        inv.hwidth, inv.hheight] at hcount
      omega
    · intro p hp
      exact cert_connected C (0, 0) p (hall (0, 0) h00) (hall p hp)

theorem wilson_generates_spanning_tree_witness :
    wilsonNew (2, 2) [0, 0, 1, 1, 0, 1, 0, 0] =
      some (⟨[(0, 0)], some (1, 1), none, 0⟩, [0, 1, 0, 0]) ∧
    wilsonRun (Maze.new 2 2) ⟨[(0, 0)], some (1, 1), none, 0⟩ [0, 1, 0, 0] 3 =
      some (⟨[], none, some Direction.LEFT, 3⟩,
        ⟨2, 2, [2, 12, 2, 9]⟩, [], true) ∧
    (((∃ p, carved (⟨2, 2, [2, 12, 2, 9]⟩ : Maze) p) →
        TreeOn (⟨2, 2, [2, 12, 2, 9]⟩ : Maze)) ∧
     (true = true →
       (∀ p, (⟨2, 2, [2, 12, 2, 9]⟩ : Maze).inB p →
          carved (⟨2, 2, [2, 12, 2, 9]⟩ : Maze) p) ∧
       (edgeFinset (⟨2, 2, [2, 12, 2, 9]⟩ : Maze)).card = 2 * 2 - 1 ∧
       (∀ p, (⟨2, 2, [2, 12, 2, 9]⟩ : Maze).inB p →
          ReachE (⟨2, 2, [2, 12, 2, 9]⟩ : Maze) (0, 0) p))) :=
  ⟨by decide, by decide,
    wilson_generates_spanning_tree 2 2 (by decide) (by decide)
      [0, 0, 1, 1, 0, 1, 0, 0] ⟨[(0, 0)], some (1, 1), none, 0⟩ [0, 1, 0, 0]
      (by decide) 3 ⟨[], none, some Direction.LEFT, 3⟩
      ⟨2, 2, [2, 12, 2, 9]⟩ [] true (by decide)⟩

end MazeSpec
